import Mathlib

/-!
Verification development for the ICS-to-Discourse reconciliation engine
(`ics_to_discourse.py`).  The Python functions relevant to identity tokens,
content normalization, candidate verification and the update/adoption logic
of `sync_event` are shallowly embedded as executable Lean definitions, and
the stated behavioural properties are settled against them.

Conventions of the embedding:
* Python strings are `String` / `List Char`; byte-level hashing works on
  `Nat` values (bytes are `Nat`s below 256, 32-bit words are `Nat`s reduced
  mod `2 ^ 32`).
* Python `set` values are `Finset String`.
* Regex scans from the source are embedded as explicit left-to-right
  scanners with the same leftmost-match semantics.
* Side-effecting remote calls are reified as an `Action` datatype; the
  engine paths produce the list of remote mutations they would issue.
-/

set_option maxHeartbeats 1000000
set_option maxRecDepth 100000

namespace IcsSync

/-! ## Character-level helpers (Python `str.strip`, `str.lower`, regex `\s`) -/

/-- ASCII whitespace, as accepted by Python `str.strip()` and the regex
class `\s` for the ASCII inputs handled here: space, tab, newline,
carriage return, vertical tab, form feed. -/
def isPyWs (c : Char) : Bool :=
  c = ' ' || c = '\t' || c = '\n' || c = '\r' || c = '\x0b' || c = '\x0c'

/-- ASCII model of Python `str.lower` on one character. -/
def lowChar (c : Char) : Char :=
  if 65 ≤ c.toNat ∧ c.toNat ≤ 90 then Char.ofNat (c.toNat + 32) else c

/-- Python `str.lower` (ASCII model), on character lists. -/
def pyLowerL (l : List Char) : List Char := l.map lowChar

/-- Python `str.strip()` on character lists: drop ASCII whitespace from
both ends. -/
def stripL (l : List Char) : List Char :=
  ((l.dropWhile isPyWs).reverse.dropWhile isPyWs).reverse

/-- Python `str.strip()`. -/
def pyStrip (s : String) : String := ⟨stripL s.data⟩

/-- Python `str.lower()` (ASCII model). -/
def pyLower (s : String) : String := ⟨pyLowerL s.data⟩

/-- `norm` from the source: `(s or "").strip().lower()`. -/
def norm (s : String) : String := pyLower (pyStrip s)

/-- `norm` applied to an optional attribute (`attrs.get(...)` may be absent;
Python `norm(None)` yields `""`). -/
def normO (x : Option String) : String := norm (x.getD "")

/-- Scanner for `re.sub(r"\s+", " ", ·)`: emit a single space at the start
of each whitespace run (`prevWs` records whether the previous character was
whitespace), copy other characters. -/
def collapseGo (prevWs : Bool) : List Char → List Char
  | [] => []
  | c :: rest =>
    if isPyWs c then
      if prevWs then collapseGo true rest
      else ' ' :: collapseGo true rest
    else c :: collapseGo false rest

/-- `re.sub(r"\s+", " ", ·)`: collapse every maximal whitespace run to a
single space. -/
def collapseL (l : List Char) : List Char := collapseGo false l

/-- Python `s.split(",")` on character lists. -/
def splitComma : List Char → List (List Char)
  | [] => [[]]
  | c :: rest =>
    if c = ',' then [] :: splitComma rest
    else
      match splitComma rest with
      | [] => [[c]]
      | h :: t => (c :: h) :: t

/-- The first-occurrence deduplication loop of the source (`seen` list /
`out` list pattern): keeps the first occurrence of each element, in order.
`acc` is the list accumulated so far. -/
def dedupAcc {α : Type} [DecidableEq α] (acc : List α) : List α → List α
  | [] => acc
  | p :: rest => if p ∈ acc then dedupAcc acc rest else dedupAcc (acc ++ [p]) rest

/-- `", ".join(...)` on character lists. -/
def joinCS : List (List Char) → List Char
  | [] => []
  | [x] => x
  | x :: y :: t => x ++ ',' :: ' ' :: joinCS (y :: t)

/-- Per-segment processing of `norm_location`:
`re.sub(r"\s+", " ", p.strip())`. -/
def procSeg (p : List Char) : List Char := collapseL (stripL p)

/-- `norm_location` from the source: lowercase, split on commas, keep
segments whose strip is nonempty, strip/collapse each, deduplicate keeping
first occurrences, join with ", ". -/
def norm_location (s : String) : String :=
  ⟨joinCS (dedupAcc []
    (((splitComma (pyLowerL s.data)).filter
        (fun p => !(stripL p).isEmpty)).map procSeg))⟩

/-- `norm_location` applied to an optional attribute (`norm_location(None)`
yields `""`). -/
def normLocO (x : Option String) : String := norm_location (x.getD "")

/-- Modelled from the spec's wording of the location normalizer: lowercase
the string, split on commas, trim each segment and collapse its internal
whitespace runs, drop empty segments, deduplicate preserving
first-occurrence order, rejoin with ", ".  Used to compare against the
source's `norm_location`. -/
def norm_location_spec (s : String) : String :=
  ⟨joinCS (dedupAcc []
    ((((splitComma (pyLowerL s.data)).map procSeg).filter
        (fun p => !p.isEmpty))))⟩

/-! ## Generic scanning helpers -/

/-- Does `hay` start with `needle` (exact case)?  Arguments: needle, hay. -/
def startsWith : List Char → List Char → Bool
  | [], _ => true
  | _ :: _, [] => false
  | a :: as, b :: bs => a = b && startsWith as bs

/-- Python's substring test `needle in hay` (exact case).
Arguments: needle, hay. -/
def isSubL : List Char → List Char → Bool
  | n, [] => n.isEmpty
  | n, c :: t => startsWith n (c :: t) || isSubL n t

/-- Python's substring test on strings: `containsStr hay needle` models
`needle in hay`. -/
def containsStr (hay needle : String) : Bool := isSubL needle.data hay.data

/-- Consume the literal `pat` from the front of `l` (exact case); return
the remainder on success. -/
def dropLit : List Char → List Char → Option (List Char)
  | [], l => some l
  | _ :: _, [] => none
  | p :: ps, c :: cs => if c = p then dropLit ps cs else none

/-- Consume the literal `pat` from the front of `l`, case-insensitively
(regex `re.I`); return the remainder on success. -/
def dropLitCI : List Char → List Char → Option (List Char)
  | [], l => some l
  | _ :: _, [] => none
  | p :: ps, c :: cs => if lowChar c = lowChar p then dropLitCI ps cs else none

/-- Regex word character (`\w`): `[A-Za-z0-9_]` (ASCII model). -/
def wordChar (c : Char) : Bool :=
  ('a' ≤ c && c ≤ 'z') || ('A' ≤ c && c ≤ 'Z') || ('0' ≤ c && c ≤ '9') || c = '_'

/-- The character class `[0-9a-f]` under `re.IGNORECASE`. -/
def isHexIC (c : Char) : Bool :=
  ('0' ≤ c && c ≤ '9') || ('a' ≤ c && c ≤ 'f') || ('A' ≤ c && c ≤ 'F')

/-! ## `strip_marker` (regex `<!--\s*ICSUID:[0-9a-f]{16}\s*-->\s*`, `re.I`) -/

/-- Try to match the marker regex at the head of `l`; on success return the
suffix after the (greedy) match.  All quantifiers of the pattern are
deterministic here because each `\s*` is followed by a non-whitespace
literal, or trailing. -/
def matchMarkerAt (l : List Char) : Option (List Char) :=
  match dropLit ('<' :: '!' :: '-' :: '-' :: []) l with
  | none => none
  | some l1 =>
    match dropLitCI ('I' :: 'C' :: 'S' :: 'U' :: 'I' :: 'D' :: ':' :: [])
        (l1.dropWhile isPyWs) with
    | none => none
    | some l3 =>
      if (l3.take 16).length = 16 ∧ (l3.take 16).all isHexIC then
        match dropLit ('-' :: '-' :: '>' :: []) ((l3.drop 16).dropWhile isPyWs) with
        | none => none
        | some l5 => some (l5.dropWhile isPyWs)
      else none

theorem dropLit_length {p l r : List Char} (h : dropLit p l = some r) :
    r.length + p.length = l.length := by
  induction p generalizing l with
  | nil => simp [dropLit] at h; simp [h]
  | cons a as ih =>
    match l with
    | [] => simp [dropLit] at h
    | c :: cs =>
      simp only [dropLit] at h
      split at h
      · have := ih h
        simp [List.length_cons]
        omega
      · exact absurd h (by simp)

theorem dropLitCI_length {p l r : List Char} (h : dropLitCI p l = some r) :
    r.length + p.length = l.length := by
  induction p generalizing l with
  | nil => simp [dropLitCI] at h; simp [h]
  | cons a as ih =>
    match l with
    | [] => simp [dropLitCI] at h
    | c :: cs =>
      simp only [dropLitCI] at h
      split at h
      · have := ih h
        simp [List.length_cons]
        omega
      · exact absurd h (by simp)

theorem matchMarkerAt_length {l r : List Char} (h : matchMarkerAt l = some r) :
    r.length + 30 ≤ l.length := by
  unfold matchMarkerAt at h
  split at h
  · exact absurd h (by simp)
  · rename_i l1 h1
    have e1 := dropLit_length h1
    split at h
    · exact absurd h (by simp)
    · rename_i l3 h2
      have e2 := dropLitCI_length h2
      have e2' : (l1.dropWhile isPyWs).length ≤ l1.length :=
        (List.dropWhile_sublist isPyWs).length_le
      split at h
      · rename_i hhex
        split at h
        · exact absurd h (by simp)
        · rename_i l5 h3
          have e3 := dropLit_length h3
          have e3' : ((l3.drop 16).dropWhile isPyWs).length ≤ (l3.drop 16).length :=
            (List.dropWhile_sublist isPyWs).length_le
          have e4 : (l3.drop 16).length = l3.length - 16 := List.length_drop 16 l3
          have e5 : 16 ≤ l3.length := by
            have := hhex.1
            have h16 : (l3.take 16).length = min 16 l3.length := List.length_take 16 l3
            omega
          have e6 : r.length ≤ l5.length := by
            cases h
            exact (List.dropWhile_sublist isPyWs).length_le
          simp only [List.length_cons, List.length_nil] at e1 e2 e3
          omega
      · exact absurd h (by simp)

/-- The scanning loop of `re.sub` for the marker pattern: at each position,
delete a leftmost match and continue after it, otherwise keep the character
and move on.  The fuel argument only forces structural recursion: every
step consumes at least one character, so a fuel of `l.length` never runs
out (`stripMarkerGo_congr`). -/
def stripMarkerGo : Nat → List Char → List Char
  | 0, l => l
  | _, [] => []
  | fuel + 1, c :: rest =>
    match matchMarkerAt (c :: rest) with
    | some r => stripMarkerGo fuel r
    | none => c :: stripMarkerGo fuel rest

def stripMarkerCore (l : List Char) : List Char := stripMarkerGo l.length l

theorem stripMarkerGo_congr :
    ∀ (f1 f2 : Nat) (l : List Char), l.length ≤ f1 → l.length ≤ f2 →
      stripMarkerGo f1 l = stripMarkerGo f2 l := by
  intro f1
  induction f1 with
  | zero =>
    intro f2 l h1 _
    have : l = [] := List.length_eq_zero.mp (by omega)
    subst this
    cases f2 <;> rfl
  | succ f ih =>
    intro f2 l h1 h2
    cases l with
    | nil => cases f2 <;> rfl
    | cons c rest =>
      simp only [List.length_cons] at h1 h2
      cases f2 with
      | zero => omega
      | succ g =>
        simp only [stripMarkerGo]
        cases hm : matchMarkerAt (c :: rest) with
        | some r =>
          have hr := matchMarkerAt_length hm
          simp only [List.length_cons] at hr
          exact ih g r (by omega) (by omega)
        | none =>
          rw [ih g rest (by omega) (by omega)]

/-- `strip_marker` from the source:
`re.sub(r"<!--\s*ICSUID:[0-9a-f]{16}\s*-->\s*", "", raw, flags=re.I)`. -/
def strip_marker (raw : String) : String := ⟨stripMarkerCore raw.data⟩

/-! ## `parse_event_attrs` (regexes `EVENT_TAG_RE` and `ATTR_RE`) -/

/-- Try to match `\[event\s+([^\]]+)\]` (with `re.I | re.S`) at the head of
`l`; on success return the captured group.  The group is the segment
between the mandatory whitespace and the first `]`; when that segment is
exhausted by the whitespace run, backtracking leaves its last character as
the group. -/
def matchEventOpenAt (l : List Char) : Option (List Char) :=
  match dropLitCI ('[' :: 'e' :: 'v' :: 'e' :: 'n' :: 't' :: []) l with
  | none => none
  | some l1 =>
    let seg := l1.takeWhile (fun c => !(c = ']' : Bool))
    if seg.length < l1.length then
      match seg with
      | [] => none
      | s0 :: srest =>
        if isPyWs s0 ∧ 2 ≤ seg.length then
          let g := seg.dropWhile isPyWs
          some (if g.isEmpty then [(s0 :: srest).getLast (by simp)] else g)
        else none
    else none

/-- `EVENT_TAG_RE.search`: leftmost match of the event-open pattern,
returning the captured group. -/
def eventGroup : List Char → Option (List Char)
  | [] => none
  | c :: rest =>
    match matchEventOpenAt (c :: rest) with
    | some g => some g
    | none => eventGroup rest

/-- Try to match `ATTR_RE = ([a-zA-Z0-9_-]+)\s*=\s*"([^"]*)"` at the head
of `l`; on success return the (name, value) pair and the suffix after the
closing quote. -/
def matchAttrAt (l : List Char) : Option ((List Char × List Char) × List Char) :=
  let nm := l.takeWhile (fun c => wordChar c || c = '-')
  if nm.isEmpty then none
  else
    match (l.drop nm.length).dropWhile isPyWs with
    | '=' :: r2 =>
      match r2.dropWhile isPyWs with
      | '"' :: r4 =>
        let v := r4.takeWhile (fun c => !(c = '"' : Bool))
        if v.length < r4.length then some ((nm, v), r4.drop (v.length + 1))
        else none
      | _ => none
    | _ => none

/-- `ATTR_RE.findall`: scan left to right for non-overlapping attribute
matches.  As with `stripMarkerGo`, the fuel only forces structural
recursion: every step consumes at least one character, so a fuel of
`l.length` suffices. -/
def findAttrsGo : Nat → List Char → List (List Char × List Char)
  | 0, _ => []
  | _, [] => []
  | fuel + 1, c :: rest =>
    match matchAttrAt (c :: rest) with
    | some (nv, r) => nv :: findAttrsGo fuel r
    | none => findAttrsGo fuel rest

def findAttrs (l : List Char) : List (List Char × List Char) :=
  findAttrsGo l.length l

theorem matchAttrAt_length {l : List Char} {nv : List Char × List Char}
    {r : List Char} (h : matchAttrAt l = some (nv, r)) : r.length < l.length := by
  simp only [matchAttrAt] at h
  split at h
  · exact absurd h (by simp)
  · rename_i hnm
    split at h
    · rename_i r2 heq
      split at h
      · rename_i r4 heq2
        split at h
        · rename_i hv
          have hr : r = r4.drop ((r4.takeWhile (fun c => !(c = '"' : Bool))).length + 1) := by
            cases h
            rfl
          have h1 : ((l.drop ((l.takeWhile (fun c => wordChar c || c = '-')).length)).dropWhile isPyWs).length
              ≤ l.length - (l.takeWhile (fun c => wordChar c || c = '-')).length := by
            have := (List.dropWhile_sublist (l := l.drop ((l.takeWhile (fun c => wordChar c || c = '-')).length)) isPyWs).length_le
            simpa [List.length_drop] using this
          have h2 : r2.length + 1 = ((l.drop ((l.takeWhile (fun c => wordChar c || c = '-')).length)).dropWhile isPyWs).length := by
            rw [heq]
            simp
          have h3 : (r2.dropWhile isPyWs).length ≤ r2.length :=
            (List.dropWhile_sublist isPyWs).length_le
          have h4 : r4.length + 1 = (r2.dropWhile isPyWs).length := by
            rw [heq2]
            simp
          have h5 : r.length = r4.length - ((r4.takeWhile (fun c => !(c = '"' : Bool))).length + 1) := by
            rw [hr]
            simp [List.length_drop]
          have hnm' : ¬(l.takeWhile (fun c => wordChar c || c = '-')).length = 0 := by
            simpa [List.isEmpty_iff, List.length_eq_zero] using hnm
          have hle : (l.takeWhile (fun c => wordChar c || c = '-')).length ≤ l.length :=
            (List.takeWhile_sublist _).length_le
          omega
        · exact absurd h (by simp)
      · exact absurd h (by simp)
    · exact absurd h (by simp)

/-- The fuel of `findAttrsGo` is irrelevant as long as it bounds the input
length: every scanning step consumes at least one character. -/
theorem findAttrsGo_congr :
    ∀ (f1 f2 : Nat) (l : List Char), l.length ≤ f1 → l.length ≤ f2 →
      findAttrsGo f1 l = findAttrsGo f2 l := by
  intro f1
  induction f1 with
  | zero =>
    intro f2 l h1 _
    have : l = [] := List.length_eq_zero.mp (by omega)
    subst this
    cases f2 <;> rfl
  | succ f ih =>
    intro f2 l h1 h2
    cases l with
    | nil => cases f2 <;> rfl
    | cons c rest =>
      simp only [List.length_cons] at h1 h2
      cases f2 with
      | zero => omega
      | succ g =>
        simp only [findAttrsGo]
        cases hm : matchAttrAt (c :: rest) with
        | some nvr =>
          obtain ⟨nv, r⟩ := nvr
          have hr := matchAttrAt_length hm
          simp only [List.length_cons] at hr
          exact congrArg (fun x => nv :: x) (ih g r (by omega) (by omega))
        | none =>
          exact ih g rest (by omega) (by omega)

/-- `parse_event_attrs` from the source: locate the first `[event ...]`
block, extract its attribute list, lowercase the keys.  The returned list
retains the findall order; dictionary lookup semantics (later keys win) is
`dGet` below. -/
def parse_event_attrs (raw : String) : List (String × String) :=
  match eventGroup raw.data with
  | none => []
  | some g => (findAttrs g).map (fun nv => (⟨pyLowerL nv.1⟩, ⟨nv.2⟩))

/-- Python dict constructed from a key/value list: the last binding of a
key wins; absent keys give `none` (dict `.get`). -/
def dGet (d : List (String × String)) (k : String) : Option String :=
  (d.reverse.find? (fun p => p.1 == k)).map (fun p => p.2)

/-! ## `close_enough_loc` and the verification gate -/

/-- `close_enough_loc` from the source: empty is a wildcard, otherwise
accept equality or containment either way. -/
def close_enough_loc (a b : String) : Bool :=
  if a = "" || b = "" then true
  else a == b || containsStr b a || containsStr a b

/-- The canonical triple `(norm start, norm end, norm_location location)`
re-parsed from a first-post raw content. -/
def tripOf (firstRaw : String) : String × String × String :=
  let attrs := parse_event_attrs firstRaw
  (normO (dGet attrs "start"), normO (dGet attrs "end"), normLocO (dGet attrs "location"))

/-- `_verify_event_hit` from the source, as a function of the fetched
topic's posts (list of raw contents): parse the first post's `[event]`
attrs and verify the time/location triple against the candidate set. -/
def _verify_event_hit (posts : List String)
    (candidate_triples : Finset (String × String × String))
    (loc_now : String) (time_only : Bool) : Bool :=
  match posts with
  | [] => false
  | first :: _ =>
    if (parse_event_attrs first).isEmpty then false
    else
      let trip := tripOf first
      if time_only then
        decide ((trip.1, trip.2.1) ∈
          candidate_triples.image (fun t => (t.1, t.2.1)))
          && close_enough_loc trip.2.2 loc_now
      else decide (trip ∈ candidate_triples)

/-- `verify_candidate_ids_by_event` from the source, as a function of the
already-fetched topics (id paired with its post raw contents): return the
first candidate id whose freshly parsed triple passes the gate. -/
def verify_candidate_ids_by_event
    (cands : List (Nat × List String))
    (candidate_triples : Finset (String × String × String))
    (loc_now : String) (time_only : Bool) : Option Nat :=
  match cands with
  | [] => none
  | (tid, posts) :: rest =>
    match posts with
    | [] => verify_candidate_ids_by_event rest candidate_triples loc_now time_only
    | first :: _ =>
      if (parse_event_attrs first).isEmpty then
        verify_candidate_ids_by_event rest candidate_triples loc_now time_only
      else
        let trip := tripOf first
        if time_only then
          if decide ((trip.1, trip.2.1) ∈
              candidate_triples.image (fun t => (t.1, t.2.1)))
              && close_enough_loc trip.2.2 loc_now then some tid
          else verify_candidate_ids_by_event rest candidate_triples loc_now time_only
        else
          if decide (trip ∈ candidate_triples) then some tid
          else verify_candidate_ids_by_event rest candidate_triples loc_now time_only

/-! ## The reminders regexes of `update_first_post_raw` -/

/-- Tail of the pattern `\breminders?\s*=` after the literal `reminder`
has been consumed: an optional `s` (case-insensitive), whitespace, then
`=`.  Backtracking over the optional `s` is settled statically: if the
next character is an `s` it must be consumed, since `s` is neither
whitespace nor `=`. -/
def remTail (l : List Char) : Bool :=
  match l with
  | c :: rest =>
    if lowChar c = 's' then
      match rest.dropWhile isPyWs with
      | '=' :: _ => true
      | _ => false
    else
      match l.dropWhile isPyWs with
      | '=' :: _ => true
      | _ => false
  | [] => false

/-- Match `\breminders?\s*=` (with `re.I`) at the head of `l`; the word
boundary is checked by the caller. -/
def matchRemAt (l : List Char) : Bool :=
  match dropLitCI ('r' :: 'e' :: 'm' :: 'i' :: 'n' :: 'd' :: 'e' :: 'r' :: []) l with
  | some rest => remTail rest
  | none => false

/-- `re.search(r'\breminders?\s*=', ·, flags=re.I)`: scan every position,
keeping track of whether the previous character was a word character
(for `\b`). -/
def hasRemCore (prevIsWord : Bool) : List Char → Bool
  | [] => false
  | c :: rest =>
    ((!prevIsWord) && matchRemAt (c :: rest)) || hasRemCore (wordChar c) rest

/-- Does the content already carry a `reminders` attribute
(`re.search(r'\breminders?\s*=', new_raw, flags=re.I)`)? -/
def hasRemindersAttr (s : String) : Bool := hasRemCore false s.data

/-- Try to match `\[event\b[^\]]*\]` (with `re.I`) at the head of `l`;
on success return the captured group `(\[event\b[^\]]*)` with its original
characters, and the suffix after the closing `]`. -/
def matchEventTagAt (l : List Char) : Option (List Char × List Char) :=
  match dropLitCI ('[' :: 'e' :: 'v' :: 'e' :: 'n' :: 't' :: []) l with
  | none => none
  | some r =>
    if (match r.head? with | some c => wordChar c | none => false) then none
    else
      let body := r.takeWhile (fun c => !(c = ']' : Bool))
      if body.length < r.length then
        some (l.take (6 + body.length), r.drop (body.length + 1))
      else none

/-- The replacement text ` reminders="bumpTopic.5.minutes"]` of the
injection substitution. -/
def remInsert : List Char :=
  (" reminders=\"bumpTopic.5.minutes\"]").data

/-- `re.sub(r'(\[event\b[^\]]*)\]', r'\1 reminders="..."]', raw, count=1,
flags=re.I)`: rewrite the first event-open tag only. -/
def injectCore : List Char → List Char
  | [] => []
  | c :: rest =>
    match matchEventTagAt (c :: rest) with
    | some (grp, after) => grp ++ remInsert ++ after
    | none => c :: injectCore rest

/-- The reminder-injection step of `update_first_post_raw`: when the
content mentions `[event` (exact-case substring test) and has no
`reminders` attribute, insert the default reminder into the first event
tag; otherwise the content is written unchanged. -/
def injectReminders (s : String) : String :=
  if containsStr s "[event" && !hasRemindersAttr s then ⟨injectCore s.data⟩
  else s

/-! ## SHA-1 (hashlib.sha1) over `Nat` bytes -/

/-- UTF-8 encoding of one character, as byte values. -/
def utf8Char (c : Char) : List Nat :=
  let n := c.toNat
  if n < 128 then [n]
  else if n < 2048 then [192 + n / 64, 128 + n % 64]
  else if n < 65536 then [224 + n / 4096, 128 + n / 64 % 64, 128 + n % 64]
  else [240 + n / 262144, 128 + n / 4096 % 64, 128 + n / 64 % 64, 128 + n % 64]

/-- UTF-8 encoding of a string, as byte values (Python `str.encode`). -/
def utf8 (s : String) : List Nat := s.data.flatMap utf8Char

/-- 32-bit left rotation on `Nat` values below `2 ^ 32`. -/
def rotl (k x : Nat) : Nat := (x * 2 ^ k + x / 2 ^ (32 - k)) % 2 ^ 32

/-- SHA-1 round function. -/
def sha1F (t b c d : Nat) : Nat :=
  if t < 20 then (b &&& c) ||| ((b ^^^ 4294967295) &&& d)
  else if t < 40 then b ^^^ c ^^^ d
  else if t < 60 then (b &&& c) ||| (b &&& d) ||| (c &&& d)
  else b ^^^ c ^^^ d

/-- SHA-1 round constants. -/
def sha1K (t : Nat) : Nat :=
  if t < 20 then 1518500249
  else if t < 40 then 1859775393
  else if t < 60 then 2400959708
  else 3395469782

/-- Message-schedule extension: starting from the 16 block words, append
words up to index 79. -/
def sha1Extend (ws : List Nat) : Nat → List Nat
  | 0 => ws
  | n + 1 =>
    let ws' := sha1Extend ws n
    ws' ++ [rotl 1 (ws'.getD (ws'.length - 3) 0 ^^^ ws'.getD (ws'.length - 8) 0
      ^^^ ws'.getD (ws'.length - 14) 0 ^^^ ws'.getD (ws'.length - 16) 0)]

/-- The 80 compression rounds. -/
def sha1Rounds : List Nat → Nat → Nat × Nat × Nat × Nat × Nat → Nat × Nat × Nat × Nat × Nat
  | [], _, st => st
  | w :: ws, t, (a, b, c, d, e) =>
    sha1Rounds ws (t + 1)
      ((rotl 5 a + sha1F t b c d + e + sha1K t + w) % 2 ^ 32, a, rotl 30 b, c, d)

/-- Big-endian 32-bit words from a 64-byte block. -/
def wordsOf : List Nat → List Nat
  | b0 :: b1 :: b2 :: b3 :: rest =>
    (b0 * 16777216 + b1 * 65536 + b2 * 256 + b3) :: wordsOf rest
  | _ => []

/-- One SHA-1 block step. -/
def sha1Block (h : Nat × Nat × Nat × Nat × Nat) (block : List Nat) :
    Nat × Nat × Nat × Nat × Nat :=
  let (h0, h1, h2, h3, h4) := h
  let ws := sha1Extend (wordsOf block) 64
  let (a, b, c, d, e) := sha1Rounds ws 0 (h0, h1, h2, h3, h4)
  ((h0 + a) % 2 ^ 32, (h1 + b) % 2 ^ 32, (h2 + c) % 2 ^ 32,
   (h3 + d) % 2 ^ 32, (h4 + e) % 2 ^ 32)

/-- Split a list into chunks of 64. -/
def chunks64 (l : List Nat) : List (List Nat) :=
  match l with
  | [] => []
  | c :: rest => (c :: rest).take 64 :: chunks64 ((c :: rest).drop 64)
termination_by l.length
decreasing_by
  simp [List.length_drop]
  omega

/-- SHA-1 padding: `0x80`, zeros to 56 mod 64, then the 64-bit big-endian
bit length. -/
def sha1Pad (msg : List Nat) : List Nat :=
  let bitLen := msg.length * 8
  msg ++ 128 :: List.replicate ((119 - msg.length % 64) % 64) 0
    ++ [bitLen / 2 ^ 56 % 256, bitLen / 2 ^ 48 % 256, bitLen / 2 ^ 40 % 256,
        bitLen / 2 ^ 32 % 256, bitLen / 2 ^ 24 % 256, bitLen / 2 ^ 16 % 256,
        bitLen / 2 ^ 8 % 256, bitLen % 256]

/-- SHA-1 digest of a byte list, as 20 byte values. -/
def sha1Bytes (msg : List Nat) : List Nat :=
  let (h0, h1, h2, h3, h4) :=
    (chunks64 (sha1Pad msg)).foldl sha1Block
      (1732584193, 4023233417, 2562383102, 271733878, 3285377520)
  [h0 / 2 ^ 24 % 256, h0 / 2 ^ 16 % 256, h0 / 2 ^ 8 % 256, h0 % 256,
   h1 / 2 ^ 24 % 256, h1 / 2 ^ 16 % 256, h1 / 2 ^ 8 % 256, h1 % 256,
   h2 / 2 ^ 24 % 256, h2 / 2 ^ 16 % 256, h2 / 2 ^ 8 % 256, h2 % 256,
   h3 / 2 ^ 24 % 256, h3 / 2 ^ 16 % 256, h3 / 2 ^ 8 % 256, h3 % 256,
   h4 / 2 ^ 24 % 256, h4 / 2 ^ 16 % 256, h4 / 2 ^ 8 % 256, h4 % 256]

/-- Lowercase hex digit for a nibble value. -/
def hexChar (n : Nat) : Char :=
  ("0123456789abcdef").data.getD n '0'

/-- `hashlib.sha1(u.encode("utf-8")).hexdigest()`. -/
def sha1Hex (u : String) : String :=
  ⟨(sha1Bytes (utf8 u)).flatMap (fun b => [hexChar (b / 16 % 16), hexChar (b % 16)])⟩

/-! ## Identity tokens (`short_uid_tag`, `build_marker`, `_uid_tag_variants`) -/

/-- `short_uid_tag`: `"ics-" + sha1(uid).hexdigest()[:10]`. -/
def short_uid_tag (uid : String) : String :=
  "ics-" ++ ⟨(sha1Hex uid).data.take 10⟩

/-- `build_marker`: `"ICSUID:" + sha1(uid).hexdigest()[:16]`. -/
def build_marker (uid : String) : String :=
  "ICSUID:" ++ ⟨(sha1Hex uid).data.take 16⟩

/-- The per-candidate tag formula used inside `_uid_tag_variants`
(`f"ics-{hashlib.sha1(u.encode('utf-8')).hexdigest()[:10]}"`). -/
def variantTag (u : String) : String :=
  "ics-" ++ ⟨(sha1Hex u).data.take 10⟩

/-- `_uid_tag_variants`: hash the UID as-is, trimmed, and
trimmed+lowercased; deduplicate the resulting tags keeping generation
order. -/
def _uid_tag_variants (uid : String) : List String :=
  dedupAcc [] ([uid, pyStrip uid, pyLower (pyStrip uid)].map variantTag)

/-! ## Event rendering (`make_event_block`) -/

/-- A source event after the external Source Reader and timezone
conversion have run: `startStr`/`endStr` are the already-rendered
`to_local_iso` outputs (empty when the field is absent). -/
structure SourceEventR where
  uid : String
  summary : String
  location : String
  url : String
  desc : String
  startStr : String
  endStr : String
deriving DecidableEq

/-- `make_event_block` from the source, given rendered time strings:
returns `(summary, content, uid)`. -/
def make_event_block (ev : SourceEventR) (siteTz : String) : String × String × String :=
  let location := pyStrip ev.location
  let url := pyStrip ev.url
  let desc := pyStrip ev.desc
  let eventOpen :=
    "[event start=\"" ++ ev.startStr ++ "\""
    ++ (if ev.endStr ≠ "" then " end=\"" ++ ev.endStr ++ "\"" else "")
    ++ " status=\"public\" name=\"" ++ ev.summary ++ "\""
    ++ (if location ≠ "" then " location=\"" ++ location ++ "\"" else "")
    ++ " reminders=\"bumpTopic.5.minutes\""
    ++ " timezone=\"" ++ siteTz ++ "\"]"
  let bodyLines :=
    (if location ≠ "" then ["**Location:** " ++ location] else [])
    ++ (if url ≠ "" then ["**Link:** " ++ url] else [])
    ++ (if desc ≠ "" then ["", desc] else [])
  (ev.summary, String.intercalate "\n" ([eventOpen] ++ bodyLines ++ ["[/event]"]), ev.uid)

/-- The `fresh_raw` assembled by `sync_event`: invisible marker comment,
newline, rendered event block, newline. -/
def fresh_raw_of (ev : SourceEventR) (siteTz : String) : String :=
  "<!-- " ++ build_marker ev.uid ++ " -->\n" ++ (make_event_block ev siteTz).2.1 ++ "\n"

/-! ## The reconciliation actions of `sync_event` -/

/-- A remote topic as read by `read_topic_full`: the raw contents of its
posts and its tag list. -/
structure Topic where
  posts : List String
  tags : List String
deriving DecidableEq

/-- The remote mutations the engine can issue.  `updatePost` is
`PUT /posts/{id}.json` with `post[raw]` (and optionally `bypass_bump`);
`updateTags` is `PUT /t/{id}.json` with `tags[]`; `createTopic` is
`POST /posts.json` with title, raw, category and tags. -/
inductive Action where
  | updatePost (raw : String) (bypassBump : Bool)
  | updateTags (tags : List String)
  | createTopic (title : String) (raw : String) (categoryId : Nat) (tags : List String)
deriving DecidableEq

/-- `_norm_tags` from the source (list branch): strip each entry, drop the
empty ones. -/
def _norm_tags (l : List String) : List String :=
  (l.map pyStrip).filter (fun t => !t.isEmpty)

/-- The merged tag set of the update and adoption paths:
`set(existing) ∪ _norm_tags(DEFAULT_TAGS) ∪ _norm_tags(args.static_tags)`
(the `uid_tag` insertion is commented out in the source). -/
def desiredTags (existing defaultTags staticTags : List String) : Finset String :=
  existing.toFinset ∪ (_norm_tags defaultTags).toFinset ∪ (_norm_tags staticTags).toFinset

/-- Python `sorted` on a set of strings. -/
def sortedTags (s : Finset String) : List String := s.sort (· ≤ ·)

/-- The meaningful-change test of the update path: normalized start, end
or location parsed out of the old cleaned content differs from the new
cleaned content. -/
def meaningfulChange (oldClean freshClean : String) : Bool :=
  let oldAttrs := parse_event_attrs oldClean
  let newAttrs := parse_event_attrs freshClean
  (normO (dGet oldAttrs "start") != normO (dGet newAttrs "start"))
  || (normO (dGet oldAttrs "end") != normO (dGet newAttrs "end"))
  || (normLocO (dGet oldAttrs "location") != normLocO (dGet newAttrs "location"))

/-- The UPDATE path of `sync_event` (topic found via identity lookup):
the list of remote mutations issued, in order.  Content: compare the
marker-stripped, whitespace-stripped old and fresh contents; when they
differ write `fresh_raw` (after the reminder injection of
`update_first_post_raw`), bypassing the bump exactly when the change is
not meaningful.  Tags: write the sorted merged set when it differs from
the existing set. -/
def syncUpdateActions (t : Topic) (freshRaw : String)
    (defaultTags staticTags : List String) : List Action :=
  let oldRaw := (t.posts.head?).getD ""
  let oldClean := strip_marker oldRaw
  let freshClean := strip_marker freshRaw
  let contentActs :=
    if pyStrip oldClean ≠ pyStrip freshClean then
      [Action.updatePost (injectReminders freshRaw)
        (!meaningfulChange oldClean freshClean)]
    else []
  let desired := desiredTags t.tags defaultTags staticTags
  let tagActs :=
    if t.tags.toFinset ≠ desired then [Action.updateTags (sortedTags desired)]
    else []
  contentActs ++ tagActs

/-- The adoption tail of `sync_event` (topic found by a fallback search
stage): merge tags, then rewrite the first post quietly (bump bypassed)
when the marker token does not yet occur in it, writing the old raw back
through `update_first_post_raw` (the marker-prepending line is commented
out in the source). -/
def adoptActions (t : Topic) (markerToken : String)
    (defaultTags staticTags : List String) : List Action :=
  let desired := desiredTags t.tags defaultTags staticTags
  let tagActs :=
    if t.tags.toFinset ≠ desired then [Action.updateTags (sortedTags desired)]
    else []
  let contentActs :=
    match t.posts.head? with
    | none => []
    | some oldRaw =>
      if !containsStr (pyLower oldRaw) (pyLower markerToken) then
        [Action.updatePost (injectReminders oldRaw) true]
      else []
  tagActs ++ contentActs

/-- The tag list posted by the CREATE branch:
`sorted(set(_norm_tags(DEFAULT_TAGS)) ∪ set(_norm_tags(static_tags)))`. -/
def createTags (defaultTags staticTags : List String) : List String :=
  sortedTags ((_norm_tags defaultTags).toFinset ∪ (_norm_tags staticTags).toFinset)

/-- The remote topic state right after the CREATE branch posted
`fresh_raw` with the merged tag list. -/
def createdTopic (freshRaw : String) (defaultTags staticTags : List String) : Topic :=
  { posts := [freshRaw], tags := createTags defaultTags staticTags }

/-- Effect of one successfully applied remote mutation on a topic. -/
def applyAction (t : Topic) : Action → Topic
  | .updatePost raw _ => { t with posts := raw :: t.posts.tail }
  | .updateTags tags => { t with tags := tags }
  | .createTopic _ _ _ _ => t

/-- Effect of a mutation list, applied left to right. -/
def applyActions (t : Topic) (acts : List Action) : Topic :=
  acts.foldl applyAction t

/-- Does an action write a topic title or category?  Only topic creation
carries either. -/
def touchesTitleOrCategory : Action → Bool
  | .createTopic _ _ _ _ => true
  | _ => false

/-- Change classification, modelled from the spec: Meaningful iff the
normalized (start, end, location) triple parsed from the old content
differs from the one parsed from the new content. -/
inductive ChangeClassification where
  | Meaningful
  | Cosmetic
deriving DecidableEq

/-- Spec-side classifier over the parsed canonical triples. -/
def classifySpec (oldClean freshClean : String) : ChangeClassification :=
  if tripOf oldClean ≠ tripOf freshClean then ChangeClassification.Meaningful
  else ChangeClassification.Cosmetic

/-! ## Supporting lemmas -/

theorem toNat_ofNat_small {n : Nat} (h : n < 55296) : (Char.ofNat n).toNat = n := by
  have hv : n.isValidChar := Or.inl h
  simp only [Char.ofNat, dif_pos hv, Char.ofNatAux, Char.toNat]
  simp [UInt32.toNat, UInt32.ofNatCore]

theorem lowChar_lowChar (c : Char) : lowChar (lowChar c) = lowChar c := by
  unfold lowChar
  by_cases h : 65 ≤ c.toNat ∧ c.toNat ≤ 90
  · rw [if_pos h]
    have ht : (Char.ofNat (c.toNat + 32)).toNat = c.toNat + 32 :=
      toNat_ofNat_small (by omega)
    rw [if_neg (by rw [ht]; omega)]
  · rw [if_neg h, if_neg h]

theorem collapseL_eq_nil {l : List Char} : collapseL l = [] ↔ l = [] := by
  constructor
  · intro h
    cases l with
    | nil => rfl
    | cons c rest =>
      unfold collapseL collapseGo at h
      split at h
      · simp at h
      · simp at h
  · intro h
    subst h
    rfl

theorem procSeg_eq_nil {p : List Char} : procSeg p = [] ↔ stripL p = [] := by
  unfold procSeg
  exact collapseL_eq_nil

theorem filter_map_procSeg (l : List (List Char)) :
    (l.filter (fun p => !(stripL p).isEmpty)).map procSeg
      = (l.map procSeg).filter (fun p => !p.isEmpty) := by
  induction l with
  | nil => rfl
  | cons h t ih =>
    by_cases hs : stripL h = []
    · have h1 : procSeg h = [] := procSeg_eq_nil.mpr hs
      simp [List.filter_cons, hs, h1, ih]
    · have h1 : procSeg h ≠ [] := fun hc => hs (procSeg_eq_nil.mp hc)
      simp [List.filter_cons, hs, h1, ih]

/-! ## C8 -/

/-- C8: the source's `norm_location` computes exactly the spec's pipeline:
lowercase, split on commas, trim each segment and collapse internal
whitespace runs, drop empty segments, deduplicate preserving
first-occurrence order, rejoin with ", ". -/
theorem norm_location_follows_spec (s : String) :
    norm_location s = norm_location_spec s := by
  unfold norm_location norm_location_spec
  rw [filter_map_procSeg]

/-! ## C7 -/

/-- C7: the identity tokens are pure functions of the UID, and the
tag-variant sequence starts with the raw UID's tag and covers exactly the
tags of the raw, trimmed, and trimmed+lowercased forms of the UID, without
duplicates. -/
theorem uid_tag_variants_cover (uid : String) :
    (_uid_tag_variants uid).head? = some (short_uid_tag uid)
    ∧ short_uid_tag uid ∈ _uid_tag_variants uid
    ∧ short_uid_tag (pyStrip uid) ∈ _uid_tag_variants uid
    ∧ short_uid_tag (pyLower (pyStrip uid)) ∈ _uid_tag_variants uid
    ∧ (_uid_tag_variants uid).Nodup
    ∧ (_uid_tag_variants uid).all
        (fun t => t == short_uid_tag uid || t == short_uid_tag (pyStrip uid)
          || t == short_uid_tag (pyLower (pyStrip uid))) = true := by
  have hve : ∀ u, variantTag u = short_uid_tag u := fun _ => rfl
  unfold _uid_tag_variants
  simp only [List.map, hve]
  by_cases hyx : short_uid_tag (pyStrip uid) = short_uid_tag uid
  · by_cases hzx : short_uid_tag (pyLower (pyStrip uid)) = short_uid_tag uid
    · simp [dedupAcc, hyx, hzx]
    · simp [dedupAcc, hyx, hzx]
      exact fun h => hzx h.symm
  · by_cases hzx : short_uid_tag (pyLower (pyStrip uid)) = short_uid_tag uid
    · simp [dedupAcc, hyx, hzx]
      exact fun h => hyx h.symm
    · by_cases hzy : short_uid_tag (pyLower (pyStrip uid)) = short_uid_tag (pyStrip uid)
      · simp [dedupAcc, hyx, hzx, hzy]
        exact fun h => hyx h.symm
      · simp [dedupAcc, hyx, hzx, hzy]
        exact ⟨⟨fun h => hyx h.symm, fun h => hzx h.symm⟩, fun h => hzy h.symm⟩

/-! ## C6 -/

/-- C6: neither the update path nor the adoption path ever issues a
mutation that carries a title or a category — the only calls they can
emit rewrite the first post's raw content or the tag list, so the
record's title and category are never altered after creation. -/
theorem title_category_never_touched
    (t : Topic) (freshRaw markerToken : String)
    (defaultTags staticTags : List String) :
    (syncUpdateActions t freshRaw defaultTags staticTags
      ++ adoptActions t markerToken defaultTags staticTags).all
        (fun a => !touchesTitleOrCategory a) = true := by
  rw [List.all_eq_true]
  intro a ha
  rw [List.mem_append] at ha
  have hsafe : ∀ raw b, a = Action.updatePost raw b →
      (!touchesTitleOrCategory a) = true := by
    intro raw b h
    subst h
    rfl
  have hsafe2 : ∀ l, a = Action.updateTags l →
      (!touchesTitleOrCategory a) = true := by
    intro l h
    subst h
    rfl
  rcases ha with ha | ha
  · simp only [syncUpdateActions] at ha
    rcases List.mem_append.mp ha with h | h
    · split at h
      · exact hsafe _ _ (by simpa using h)
      · simp at h
    · split at h
      · exact hsafe2 _ (by simpa using h)
      · simp at h
  · simp only [adoptActions] at ha
    rcases List.mem_append.mp ha with h | h
    · split at h
      · exact hsafe2 _ (by simpa using h)
      · simp at h
    · split at h
      · simp at h
      · split at h
        · exact hsafe _ _ (by simpa using h)
        · simp at h

theorem startsWith_iff {n h : List Char} : startsWith n h = true ↔ ∃ q, h = n ++ q := by
  induction n generalizing h with
  | nil => simp [startsWith]
  | cons a as ih =>
    cases h with
    | nil =>
      simp only [startsWith, List.nil_eq, Bool.false_eq_true, false_iff, not_exists]
      intro q
      simp
    | cons b bs =>
      simp only [startsWith, Bool.and_eq_true, decide_eq_true_eq, ih,
        List.cons_append, List.cons.injEq]
      constructor
      · rintro ⟨rfl, q, rfl⟩
        exact ⟨q, rfl, rfl⟩
      · rintro ⟨q, rfl, rfl⟩
        exact ⟨rfl, q, rfl⟩

theorem isSubL_iff {n h : List Char} : isSubL n h = true ↔ ∃ p q, h = p ++ n ++ q := by
  induction h with
  | nil =>
    simp only [isSubL, List.isEmpty_iff]
    constructor
    · intro hn
      exact ⟨[], [], by simp [hn]⟩
    · rintro ⟨p, q, hpq⟩
      have hlen := congrArg List.length hpq
      simp only [List.length_nil, List.length_append] at hlen
      have : n.length = 0 := by omega
      exact List.length_eq_zero.mp this
  | cons c t ih =>
    simp only [isSubL, Bool.or_eq_true, startsWith_iff, ih]
    constructor
    · rintro (⟨q, hq⟩ | ⟨p, q, hq⟩)
      · exact ⟨[], q, by simp [hq]⟩
      · exact ⟨c :: p, q, by simp [hq]⟩
    · rintro ⟨p, q, hpq⟩
      cases p with
      | nil =>
        left
        exact ⟨q, by simpa using hpq⟩
      | cons p0 ps =>
        right
        simp only [List.cons_append, List.cons.injEq] at hpq
        exact ⟨ps, q, hpq.2⟩

theorem close_enough_loc_spec (a b : String) :
    close_enough_loc a b = true ↔
      (a = "" ∨ b = ""
        ∨ (∃ p q, b.data = p ++ a.data ++ q)
        ∨ (∃ p q, a.data = p ++ b.data ++ q)) := by
  unfold close_enough_loc containsStr
  split
  · rename_i hor
    simp only [true_iff]
    rcases (by simpa using hor : a = "" ∨ b = "") with h | h
    · exact Or.inl h
    · exact Or.inr (Or.inl h)
  · rename_i hor
    have hab : ¬(a = "" ∨ b = "") := by simpa using hor
    simp only [Bool.or_eq_true, beq_iff_eq, isSubL_iff]
    constructor
    · rintro ((h | h) | h)
      · exact Or.inr (Or.inr (Or.inl ⟨[], [], by simp [h]⟩))
      · exact Or.inr (Or.inr (Or.inl h))
      · exact Or.inr (Or.inr (Or.inr h))
    · rintro (h | h | h | h)
      · exact absurd (Or.inl h) hab
      · exact absurd (Or.inr h) hab
      · exact Or.inl (Or.inr h)
      · exact Or.inr h

/-- The candidate scan steps through its list testing exactly the
verification gate of `_verify_event_hit`. -/
theorem verify_candidate_cons (tid : Nat) (posts : List String)
    (rest : List (Nat × List String))
    (cands : Finset (String × String × String)) (loc : String) (timeOnly : Bool) :
    verify_candidate_ids_by_event ((tid, posts) :: rest) cands loc timeOnly
      = if _verify_event_hit posts cands loc timeOnly = true then some tid
        else verify_candidate_ids_by_event rest cands loc timeOnly := by
  rcases posts with _ | ⟨first, prest⟩
  · simp [verify_candidate_ids_by_event, _verify_event_hit]
  · by_cases he : (parse_event_attrs first).isEmpty
    · simp [verify_candidate_ids_by_event, _verify_event_hit, he]
    · cases timeOnly with
      | false =>
        simp only [verify_candidate_ids_by_event, _verify_event_hit]
        rw [if_neg he, if_neg he]
        simp
      | true =>
        simp only [verify_candidate_ids_by_event, _verify_event_hit]
        rw [if_neg he, if_neg he]
        simp

/-! ## C3 -/

/-- C3: the fallback verification gate.  With a first post present, a
candidate is accepted in default mode exactly when its freshly re-parsed
triple lies in the candidate set, and in timeOnly mode exactly when its
(start, end) pair lies in the candidate pairs and the locations pass the
containment check (empty location on either side is a wildcard, two
non-empty locations match when one contains the other).  A candidate with
no posts, or whose content block fails to parse, is rejected.  The
first-hit scan over fetched candidates accepts only ids whose topic passes
the same gate. -/
theorem verify_gate (cands : Finset (String × String × String)) (locNow : String) :
    (∀ posts first rest, posts = first :: rest →
      (_verify_event_hit posts cands locNow false = true ↔
        parse_event_attrs first ≠ [] ∧ tripOf first ∈ cands))
    ∧ (∀ posts first rest, posts = first :: rest →
      (_verify_event_hit posts cands locNow true = true ↔
        parse_event_attrs first ≠ [] ∧
        ((tripOf first).1, (tripOf first).2.1) ∈ cands.image (fun c => (c.1, c.2.1)) ∧
        ((tripOf first).2.2 = "" ∨ locNow = ""
          ∨ (∃ p q, locNow.data = p ++ (tripOf first).2.2.data ++ q)
          ∨ (∃ p q, (tripOf first).2.2.data = p ++ locNow.data ++ q))))
    ∧ (∀ timeOnly, _verify_event_hit [] cands locNow timeOnly = false)
    ∧ (∀ timeOnly first rest, parse_event_attrs first = [] →
        _verify_event_hit (first :: rest) cands locNow timeOnly = false)
    ∧ (∀ lst tid timeOnly,
        verify_candidate_ids_by_event lst cands locNow timeOnly = some tid →
        ∃ posts, (tid, posts) ∈ lst
          ∧ _verify_event_hit posts cands locNow timeOnly = true) := by
  refine ⟨?_, ?_, ?_, ?_, ?_⟩
  · intro posts first rest hp
    subst hp
    unfold _verify_event_hit
    by_cases he : (parse_event_attrs first).isEmpty
    · simp [he, List.isEmpty_iff.mp he]
    · simp [he, List.isEmpty_iff, decide_eq_true_eq]
      exact fun _ => List.isEmpty_iff.not.mp he
  · intro posts first rest hp
    subst hp
    unfold _verify_event_hit
    by_cases he : (parse_event_attrs first).isEmpty
    · simp [he, List.isEmpty_iff.mp he]
    · simp only [he, Bool.false_eq_true, if_false, if_true, Bool.and_eq_true,
        decide_eq_true_eq, close_enough_loc_spec]
      constructor
      · rintro ⟨h1, h2⟩
        exact ⟨List.isEmpty_iff.not.mp (by simpa using he), h1, h2⟩
      · rintro ⟨_, h1, h2⟩
        exact ⟨h1, h2⟩
  · intro timeOnly
    rfl
  · intro timeOnly first rest hpe
    unfold _verify_event_hit
    simp [hpe]
  · intro lst tid timeOnly
    induction lst with
    | nil => intro h; exact absurd h (by simp [verify_candidate_ids_by_event])
    | cons hd tl ih =>
      obtain ⟨hid, posts⟩ := hd
      rw [verify_candidate_cons]
      intro h
      split at h
      · rename_i hv
        cases h
        exact ⟨posts, List.mem_cons_self _ _, hv⟩
      · obtain ⟨ps, hmem, hv⟩ := ih h
        exact ⟨ps, List.mem_cons_of_mem _ hmem, hv⟩

/-- Witness for C3: a candidate whose first post has no parsable event
block is rejected by the gate. -/
theorem verify_gate_witness :
    _verify_event_hit ["plain text"] {("a", "b", "c")} "c" false = false :=
  (verify_gate {("a", "b", "c")} "c").2.2.2.1 false "plain text" [] (by decide)

/-! ## C5 -/

theorem updateTags_mem_syncUpdate {t : Topic} {freshRaw : String}
    {defaultTags staticTags : List String} {l : List String} :
    Action.updateTags l ∈ syncUpdateActions t freshRaw defaultTags staticTags ↔
      (t.tags.toFinset ≠ desiredTags t.tags defaultTags staticTags
        ∧ l = sortedTags (desiredTags t.tags defaultTags staticTags)) := by
  simp only [syncUpdateActions, List.mem_append]
  constructor
  · rintro (h | h)
    · split at h
      · simp at h
      · simp at h
    · split at h
      · rename_i hcond
        simp at h
        exact ⟨hcond, h⟩
      · simp at h
  · rintro ⟨hne, rfl⟩
    right
    rw [if_pos hne]
    exact List.mem_singleton.mpr rfl

theorem updateTags_mem_adopt {t : Topic} {markerToken : String}
    {defaultTags staticTags : List String} {l : List String} :
    Action.updateTags l ∈ adoptActions t markerToken defaultTags staticTags ↔
      (t.tags.toFinset ≠ desiredTags t.tags defaultTags staticTags
        ∧ l = sortedTags (desiredTags t.tags defaultTags staticTags)) := by
  simp only [adoptActions, List.mem_append]
  constructor
  · rintro (h | h)
    · split at h
      · rename_i hcond
        simp at h
        exact ⟨hcond, h⟩
      · simp at h
    · split at h
      · simp at h
      · split at h
        · simp at h
        · simp at h
  · rintro ⟨hne, rfl⟩
    left
    rw [if_pos hne]
    exact List.mem_singleton.mpr rfl

theorem existing_subset_desired (existing defaultTags staticTags : List String) :
    existing.toFinset ⊆ desiredTags existing defaultTags staticTags := by
  unfold desiredTags
  intro x hx
  simp only [Finset.mem_union]
  exact Or.inl (Or.inl hx)

/-- C5: tag monotonicity.  On both the update path and the adoption path,
a tag write carries exactly the union of existing tags, configured default
tags and run-provided static tags — a superset of the existing tags, so
manually added tags are never removed — and a tag write is issued exactly
when that union differs from the existing tag set. -/
theorem tag_monotonicity
    (t : Topic) (freshRaw markerToken : String)
    (defaultTags staticTags : List String) :
    (∀ l, Action.updateTags l ∈ syncUpdateActions t freshRaw defaultTags staticTags →
        l.toFinset = desiredTags t.tags defaultTags staticTags
        ∧ t.tags.toFinset ⊆ l.toFinset)
    ∧ ((∃ l, Action.updateTags l ∈ syncUpdateActions t freshRaw defaultTags staticTags)
        ↔ t.tags.toFinset ≠ desiredTags t.tags defaultTags staticTags)
    ∧ (∀ l, Action.updateTags l ∈ adoptActions t markerToken defaultTags staticTags →
        l.toFinset = desiredTags t.tags defaultTags staticTags
        ∧ t.tags.toFinset ⊆ l.toFinset)
    ∧ ((∃ l, Action.updateTags l ∈ adoptActions t markerToken defaultTags staticTags)
        ↔ t.tags.toFinset ≠ desiredTags t.tags defaultTags staticTags) := by
  have hsort : (sortedTags (desiredTags t.tags defaultTags staticTags)).toFinset
      = desiredTags t.tags defaultTags staticTags := Finset.sort_toFinset _ _
  refine ⟨?_, ?_, ?_, ?_⟩
  · intro l hl
    obtain ⟨hne, rfl⟩ := updateTags_mem_syncUpdate.mp hl
    refine ⟨hsort, ?_⟩
    rw [hsort]
    exact existing_subset_desired t.tags defaultTags staticTags
  · constructor
    · rintro ⟨l, hl⟩
      exact (updateTags_mem_syncUpdate.mp hl).1
    · intro hne
      exact ⟨_, updateTags_mem_syncUpdate.mpr ⟨hne, rfl⟩⟩
  · intro l hl
    obtain ⟨hne, rfl⟩ := updateTags_mem_adopt.mp hl
    refine ⟨hsort, ?_⟩
    rw [hsort]
    exact existing_subset_desired t.tags defaultTags staticTags
  · constructor
    · rintro ⟨l, hl⟩
      exact (updateTags_mem_adopt.mp hl).1
    · intro hne
      exact ⟨_, updateTags_mem_adopt.mpr ⟨hne, rfl⟩⟩

/-- Witness for C5: a record holding only the manually added tag "b"
(standing for e.g. "staff-pick"), with default tag "a", triggers a tag
write whose content is forced by `tag_monotonicity` to contain every
existing tag. -/
theorem tag_monotonicity_witness :
    ∃ l, Action.updateTags l ∈ syncUpdateActions ⟨["x"], ["b"]⟩ "x" ["a"] []
      ∧ l.toFinset = desiredTags ["b"] ["a"] []
      ∧ (["b"] : List String).toFinset ⊆ l.toFinset := by
  obtain ⟨l, hl⟩ := (tag_monotonicity ⟨["x"], ["b"]⟩ "x" "m" ["a"] []).2.1.mpr
    (by decide)
  obtain ⟨heq, hsub⟩ := (tag_monotonicity ⟨["x"], ["b"]⟩ "x" "m" ["a"] []).1 l hl
  exact ⟨l, hl, heq, hsub⟩

/-! ## C2 -/

/-- Concrete scenario material: one event, a description-only variant and
a location-only variant, rendered through `make_event_block` and stored
behind a marker comment as `sync_event` lays content out. -/
def scenTz : String := "Europe/London"

def scenEvA : SourceEventR :=
  ⟨"uid-1", "Physics Lecture", "Room A", "", "Old description",
    "2024-01-01 09:00", "2024-01-01 10:00"⟩

def scenEvB : SourceEventR := { scenEvA with desc := "New description" }

def scenEvC : SourceEventR := { scenEvA with location := "Room B" }

def scenMarker : String := "<!-- ICSUID:0123456789abcdef -->\n"

def scenOldRaw : String := scenMarker ++ (make_event_block scenEvA scenTz).2.1 ++ "\n"

def scenFreshB : String := scenMarker ++ (make_event_block scenEvB scenTz).2.1 ++ "\n"

def scenFreshC : String := scenMarker ++ (make_event_block scenEvC scenTz).2.1 ++ "\n"

def scenTopic : Topic := ⟨[scenOldRaw], []⟩

/-- C2: change classification and bump suppression.  The update path's
meaningful-change test holds exactly when the spec-side classification of
the parsed canonical triples is Meaningful; every content write it emits
bypasses the bump exactly when the change is not meaningful; and in the
concrete scenarios, a description-only edit is Cosmetic (bump suppressed)
while a location change is Meaningful (bump not suppressed). -/
theorem change_classification_and_bump :
    (∀ oldClean freshClean : String,
      (meaningfulChange oldClean freshClean = true
        ↔ classifySpec oldClean freshClean = ChangeClassification.Meaningful))
    ∧ (∀ (t : Topic) (freshRaw : String) (defaultTags staticTags : List String)
        (r : String) (b : Bool),
        Action.updatePost r b ∈ syncUpdateActions t freshRaw defaultTags staticTags →
          b = !meaningfulChange (strip_marker ((t.posts.head?).getD ""))
            (strip_marker freshRaw))
    ∧ syncUpdateActions scenTopic scenFreshB [] [] = [Action.updatePost scenFreshB true]
    ∧ syncUpdateActions scenTopic scenFreshC [] [] = [Action.updatePost scenFreshC false] := by
  refine ⟨?_, ?_, by decide, by decide⟩
  · intro oldC freshC
    unfold meaningfulChange classifySpec
    split
    · rename_i hne
      unfold tripOf at hne
      constructor
      · intro _
        rfl
      · intro _
        simp only [Bool.or_eq_true, bne_iff_ne, ne_eq]
        by_contra hno
        push_neg at hno
        exact hne (by
          simp only [Prod.mk.injEq]
          exact ⟨hno.1.1, hno.1.2, hno.2⟩)
    · rename_i heq
      push_neg at heq
      unfold tripOf at heq
      simp only [Prod.mk.injEq] at heq
      constructor
      · intro hb
        exfalso
        simp only [Bool.or_eq_true, bne_iff_ne, ne_eq] at hb
        rcases hb with (h | h) | h
        · exact h heq.1
        · exact h heq.2.1
        · exact h heq.2.2
      · intro hM
        cases hM
  · intro t freshRaw dT sT r b hmem
    simp only [syncUpdateActions, List.mem_append] at hmem
    rcases hmem with h | h
    · split at h
      · simp only [List.mem_singleton, Action.updatePost.injEq] at h
        exact h.2
      · simp at h
    · split at h
      · simp at h
      · simp at h

/-- Witness for C2: applying the bump rule to the description-only
scenario yields the suppressed bump flag. -/
theorem change_classification_witness :
    true = !meaningfulChange (strip_marker ((scenTopic.posts.head?).getD ""))
      (strip_marker scenFreshB) := by
  exact change_classification_and_bump.2.1 scenTopic scenFreshB [] [] scenFreshB true
    (by decide)

/-! ## C4 -/

/-- C4 (amended): on adoption, every content write is quiet (bump
bypassed) and writes the old first-post content back, altered at most by
the reminder injection of `update_first_post_raw`; when the stored event
tag already carries a reminders attribute the content written is exactly
the old content. -/
theorem adoption_content_writes
    (t : Topic) (markerToken : String) (defaultTags staticTags : List String)
    (first : String) (rest : List String)
    (hposts : t.posts = first :: rest) :
    ∀ r b, Action.updatePost r b ∈ adoptActions t markerToken defaultTags staticTags →
      b = true ∧ r = injectReminders first
      ∧ (hasRemindersAttr first = true → r = first) := by
  intro r b hmem
  simp only [adoptActions, List.mem_append] at hmem
  rcases hmem with h | h
  · split at h
    · simp at h
    · simp at h
  · rw [hposts] at h
    simp only [List.head?_cons] at h
    split at h
    · simp only [List.mem_singleton, Action.updatePost.injEq] at h
      obtain ⟨hr, hb⟩ := h
      subst hr
      subst hb
      refine ⟨rfl, rfl, ?_⟩
      intro hrem
      unfold injectReminders
      rw [hrem]
      simp
    · simp at h

def adoptCexOld : String := "[event start=\"2024-01-01 09:00\"]\n[/event]"

def adoptCexNew : String :=
  "[event start=\"2024-01-01 09:00\" reminders=\"bumpTopic.5.minutes\"]\n[/event]"

/-- Counterexample to C4 as stated: adopting a record whose stored event
tag carries no reminders attribute rewrites its first post with a default
reminders attribute injected, so the visible (marker-stripped) content
after reconciliation differs from the visible content before. -/
theorem adoption_alters_visible_content_cex :
    adoptActions ⟨[adoptCexOld], []⟩ "ICSUID:0123456789abcdef" [] []
      = [Action.updatePost adoptCexNew true]
    ∧ strip_marker adoptCexNew ≠ strip_marker adoptCexOld := by
  constructor
  · decide
  · decide

/-- Witness for the amended C4, at the counterexample's inputs. -/
theorem adoption_content_writes_witness :
    true = true ∧ adoptCexNew = injectReminders adoptCexOld
      ∧ (hasRemindersAttr adoptCexOld = true → adoptCexNew = adoptCexOld) :=
  adoption_content_writes ⟨[adoptCexOld], []⟩ "ICSUID:0123456789abcdef" [] []
    adoptCexOld [] rfl adoptCexNew true (by decide)

/-! ## C1 -/

theorem injectReminders_of_hasRem {s : String} (h : hasRemindersAttr s = true) :
    injectReminders s = s := by
  unfold injectReminders
  rw [h]
  simp

theorem union_union_absorb (X A B : Finset String) :
    (X ∪ A ∪ B) ∪ A ∪ B = X ∪ A ∪ B := by
  ext x
  simp only [Finset.mem_union]
  tauto

theorem union_absorb2 (A B : Finset String) : (A ∪ B) ∪ A ∪ B = A ∪ B := by
  ext x
  simp only [Finset.mem_union]
  tauto

/-- The update path issues nothing when the stored content already equals
the fresh content (up to marker and outer whitespace) and the tag set is
already the merged one. -/
theorem syncUpdate_noop (t' : Topic) (freshRaw : String)
    (defaultTags staticTags : List String)
    (hcontent : pyStrip (strip_marker ((t'.posts.head?).getD ""))
      = pyStrip (strip_marker freshRaw))
    (htags : t'.tags.toFinset = desiredTags t'.tags defaultTags staticTags) :
    syncUpdateActions t' freshRaw defaultTags staticTags = [] := by
  simp only [syncUpdateActions]
  rw [if_neg (fun hne => hne hcontent), if_neg (fun hne => hne htags)]
  rfl

/-- C1 (amended): idempotence of the update and create completions.  After
a first run that completed via the update path (identity lookup succeeded)
or by creating the record, a second run against the unchanged source event
and remote state issues zero content writes and zero tag writes.  A first
run completed by adoption does not enjoy this: the marker/tag retrofit is
commented out in the source, so the rerun re-adopts and issues a quiet
content write (`adopted_rerun_writes_cex`). -/
theorem second_run_no_writes
    (t : Topic) (freshRaw : String) (defaultTags staticTags : List String)
    (hrem : hasRemindersAttr freshRaw = true)
    (hposts : t.posts ≠ []) :
    syncUpdateActions
        (applyActions t (syncUpdateActions t freshRaw defaultTags staticTags))
        freshRaw defaultTags staticTags = []
    ∧ syncUpdateActions (createdTopic freshRaw defaultTags staticTags)
        freshRaw defaultTags staticTags = [] := by
  have hsortedT : ∀ X : Finset String, (sortedTags X).toFinset = X := fun X =>
    Finset.sort_toFinset _ X
  constructor
  · by_cases hC : pyStrip (strip_marker ((t.posts.head?).getD ""))
        ≠ pyStrip (strip_marker freshRaw)
    · by_cases hT : t.tags.toFinset ≠ desiredTags t.tags defaultTags staticTags
      · have hacts : syncUpdateActions t freshRaw defaultTags staticTags
            = [Action.updatePost (injectReminders freshRaw)
                (!meaningfulChange (strip_marker ((t.posts.head?).getD ""))
                  (strip_marker freshRaw)),
               Action.updateTags (sortedTags (desiredTags t.tags defaultTags staticTags))] := by
          simp only [syncUpdateActions]
          rw [if_pos hC, if_pos hT]
          rfl
        rw [hacts]
        have ht1 : applyActions t
            [Action.updatePost (injectReminders freshRaw)
              (!meaningfulChange (strip_marker ((t.posts.head?).getD ""))
                (strip_marker freshRaw)),
             Action.updateTags (sortedTags (desiredTags t.tags defaultTags staticTags))]
            = { posts := injectReminders freshRaw :: t.posts.tail,
                tags := sortedTags (desiredTags t.tags defaultTags staticTags) } := rfl
        rw [ht1]
        apply syncUpdate_noop
        · show pyStrip (strip_marker (injectReminders freshRaw)) = _
          rw [injectReminders_of_hasRem hrem]
        · show (sortedTags (desiredTags t.tags defaultTags staticTags)).toFinset
            = desiredTags (sortedTags (desiredTags t.tags defaultTags staticTags))
                defaultTags staticTags
          unfold desiredTags
          rw [hsortedT]
          exact (union_union_absorb _ _ _).symm
      · have hacts : syncUpdateActions t freshRaw defaultTags staticTags
            = [Action.updatePost (injectReminders freshRaw)
                (!meaningfulChange (strip_marker ((t.posts.head?).getD ""))
                  (strip_marker freshRaw))] := by
          simp only [syncUpdateActions]
          rw [if_pos hC, if_neg hT]
          rfl
        rw [hacts]
        have ht1 : applyActions t
            [Action.updatePost (injectReminders freshRaw)
              (!meaningfulChange (strip_marker ((t.posts.head?).getD ""))
                (strip_marker freshRaw))]
            = { posts := injectReminders freshRaw :: t.posts.tail, tags := t.tags } := rfl
        rw [ht1]
        apply syncUpdate_noop
        · show pyStrip (strip_marker (injectReminders freshRaw)) = _
          rw [injectReminders_of_hasRem hrem]
        · show t.tags.toFinset = desiredTags t.tags defaultTags staticTags
          exact not_ne_iff.mp hT
    · by_cases hT : t.tags.toFinset ≠ desiredTags t.tags defaultTags staticTags
      · have hacts : syncUpdateActions t freshRaw defaultTags staticTags
            = [Action.updateTags (sortedTags (desiredTags t.tags defaultTags staticTags))] := by
          simp only [syncUpdateActions]
          rw [if_neg hC, if_pos hT]
          rfl
        rw [hacts]
        have ht1 : applyActions t
            [Action.updateTags (sortedTags (desiredTags t.tags defaultTags staticTags))]
            = { posts := t.posts,
                tags := sortedTags (desiredTags t.tags defaultTags staticTags) } := rfl
        rw [ht1]
        apply syncUpdate_noop
        · show pyStrip (strip_marker ((t.posts.head?).getD "")) = _
          exact not_ne_iff.mp hC
        · show (sortedTags (desiredTags t.tags defaultTags staticTags)).toFinset
            = desiredTags (sortedTags (desiredTags t.tags defaultTags staticTags))
                defaultTags staticTags
          unfold desiredTags
          rw [hsortedT]
          exact (union_union_absorb _ _ _).symm
      · have hacts : syncUpdateActions t freshRaw defaultTags staticTags = [] := by
          simp only [syncUpdateActions]
          rw [if_neg hC, if_neg hT]
          rfl
        rw [hacts]
        have ht1 : applyActions t ([] : List Action) = t := rfl
        rw [ht1]
        apply syncUpdate_noop
        · exact not_ne_iff.mp hC
        · exact not_ne_iff.mp hT
  · apply syncUpdate_noop
    · rfl
    · show (createTags defaultTags staticTags).toFinset
        = desiredTags (createTags defaultTags staticTags) defaultTags staticTags
      unfold desiredTags createTags
      rw [hsortedT]
      exact (union_absorb2 _ _).symm

/-- Witness for C1: a concrete stored topic and fresh content with a
reminders attribute; both the post-update rerun and the post-create rerun
issue no mutations. -/
theorem second_run_no_writes_witness :
    syncUpdateActions
        (applyActions ⟨["old"], ["a"]⟩
          (syncUpdateActions ⟨["old"], ["a"]⟩ "[event reminders=\"e\"]" ["a"] []))
        "[event reminders=\"e\"]" ["a"] [] = []
    ∧ syncUpdateActions (createdTopic "[event reminders=\"e\"]" ["a"] [])
        "[event reminders=\"e\"]" ["a"] [] = [] :=
  second_run_no_writes ⟨["old"], ["a"]⟩ "[event reminders=\"e\"]" ["a"] []
    (by decide) (by decide)

/-- Adoption completions are not idempotent in general: since the
marker/tag retrofit is commented out in the source, an adopted record
still carries no identity marker after the first run, so an unchanged
rerun falls back to adoption again and issues another quiet first-post
write. -/
theorem adopted_rerun_still_writes
    (t : Topic) (m : String) (defaultTags staticTags : List String)
    (first : String) (rest : List String)
    (hposts : t.posts = first :: rest)
    (hm0 : containsStr (pyLower first) (pyLower m) = false)
    (hm1 : containsStr (pyLower (injectReminders first)) (pyLower m) = false) :
    Action.updatePost (injectReminders (injectReminders first)) true
      ∈ adoptActions (applyActions t (adoptActions t m defaultTags staticTags))
          m defaultTags staticTags := by
  have hacts : adoptActions t m defaultTags staticTags
      = (if t.tags.toFinset ≠ desiredTags t.tags defaultTags staticTags
          then [Action.updateTags (sortedTags (desiredTags t.tags defaultTags staticTags))]
          else [])
        ++ [Action.updatePost (injectReminders first) true] := by
    simp only [adoptActions, hposts, List.head?_cons, hm0, Bool.not_false,
      eq_self_iff_true, if_true]
  have ht1 : (applyActions t (adoptActions t m defaultTags staticTags)).posts
      = injectReminders first :: rest := by
    rw [hacts]
    by_cases hT : t.tags.toFinset ≠ desiredTags t.tags defaultTags staticTags
    · rw [if_pos hT]
      show (applyActions t [Action.updateTags _, Action.updatePost _ _]).posts = _
      simp [applyActions, applyAction, hposts]
    · rw [if_neg hT]
      show (applyActions t [Action.updatePost _ _]).posts = _
      simp [applyActions, applyAction, hposts]
  rcases hT1 : applyActions t (adoptActions t m defaultTags staticTags) with ⟨posts1, tags1⟩
  have hposts1 : posts1 = injectReminders first :: rest := by
    have h := ht1
    rw [hT1] at h
    exact h
  subst hposts1
  simp only [adoptActions, List.head?_cons, hm1, Bool.not_false,
    eq_self_iff_true, if_true]
  simp

def c1CexOld : String := "[event start=\"s\" reminders=\"x\"]\n[/event]"

def c1CexMarker : String := "ICSUID:0123456789abcdef"

/-- Counterexample to C1 as stated: a first run that completes by
adoption leaves the record without the identity marker (the retrofit is
commented out), so the identity lookup of the unchanged second run misses
and the rerun's adoption tail issues a quiet first-post content write —
not zero content writes. -/
theorem adopted_rerun_writes_cex :
    containsStr (pyLower c1CexOld) (pyLower c1CexMarker) = false
    ∧ adoptActions (applyActions ⟨[c1CexOld], []⟩
          (adoptActions ⟨[c1CexOld], []⟩ c1CexMarker [] []))
        c1CexMarker [] []
        = [Action.updatePost c1CexOld true] := by
  constructor
  · decide
  · decide

/-! ## C10 -/

theorem hexChar_isHexIC (n : Nat) : isHexIC (hexChar n) = true := by
  unfold hexChar
  by_cases h : n < 16
  · interval_cases n <;> decide
  · rw [List.getD_eq_default]
    · decide
    · have h16 : ("0123456789abcdef").data.length = 16 := rfl
      omega

theorem sha1Bytes_length (msg : List Nat) : (sha1Bytes msg).length = 20 := by
  unfold sha1Bytes
  rcases (chunks64 (sha1Pad msg)).foldl sha1Block
      (1732584193, 4023233417, 2562383102, 271733878, 3285377520) with
    ⟨h0, h1, h2, h3, h4⟩
  rfl

theorem length_flatMap_hexPairs (l : List Nat) :
    (l.flatMap (fun b => [hexChar (b / 16 % 16), hexChar (b % 16)])).length
      = 2 * l.length := by
  induction l with
  | nil => rfl
  | cons a t ih =>
    simp only [List.flatMap_cons, List.length_append, List.length_cons, ih,
      List.length_cons, List.length_nil]
    omega

theorem sha1Hex_length (u : String) : (sha1Hex u).data.length = 40 := by
  show ((sha1Bytes (utf8 u)).flatMap
    (fun b => [hexChar (b / 16 % 16), hexChar (b % 16)])).length = 40
  rw [length_flatMap_hexPairs, sha1Bytes_length]

theorem sha1Hex_all_hex (u : String) : ∀ c ∈ (sha1Hex u).data, isHexIC c = true := by
  intro c hc
  change c ∈ (sha1Bytes (utf8 u)).flatMap
    (fun b => [hexChar (b / 16 % 16), hexChar (b % 16)]) at hc
  rw [List.mem_flatMap] at hc
  obtain ⟨bb, _, hcb⟩ := hc
  simp only [List.mem_cons, List.mem_singleton, List.not_mem_nil, or_false] at hcb
  rcases hcb with rfl | rfl
  · exact hexChar_isHexIC _
  · exact hexChar_isHexIC _

theorem sha1Hex_take16_length (u : String) :
    ((sha1Hex u).data.take 16).length = 16 := by
  rw [List.length_take, sha1Hex_length]
  decide

theorem sha1Hex_take16_hex (u : String) :
    ((sha1Hex u).data.take 16).all isHexIC = true := by
  rw [List.all_eq_true]
  intro c hc
  exact sha1Hex_all_hex u c (List.mem_of_mem_take hc)

/-- The marker regex matches at the head of the canonical rendered prefix
`<!-- ICSUID:<hex16> -->\n`, greedily consuming the newline and any
further leading whitespace of the following content. -/
theorem matchMarkerAt_canonical (h b : List Char)
    (hlen : h.length = 16) (hhex : h.all isHexIC = true) :
    matchMarkerAt ('<' :: '!' :: '-' :: '-' :: ' ' :: 'I' :: 'C' :: 'S' :: 'U' :: 'I' :: 'D' :: ':' ::
        (h ++ (' ' :: '-' :: '-' :: '>' :: '\n' :: b)))
      = some (b.dropWhile isPyWs) := by
  show (if ((h ++ (' ' :: '-' :: '-' :: '>' :: '\n' :: b)).take 16).length = 16
        ∧ ((h ++ (' ' :: '-' :: '-' :: '>' :: '\n' :: b)).take 16).all isHexIC then
      match dropLit ('-' :: '-' :: '>' :: [])
          (((h ++ (' ' :: '-' :: '-' :: '>' :: '\n' :: b)).drop 16).dropWhile isPyWs) with
      | none => none
      | some l5 => some (l5.dropWhile isPyWs)
    else none) = some (b.dropWhile isPyWs)
  rw [List.take_left' hlen, List.drop_left' hlen]
  rw [if_pos ⟨hlen ▸ rfl, hhex⟩]
  rfl

theorem matchMarkerAt_nil : matchMarkerAt [] = none := rfl

theorem stripMarkerCore_of_match {l r : List Char} (hm : matchMarkerAt l = some r) :
    stripMarkerCore l = stripMarkerCore r := by
  have hlt := matchMarkerAt_length hm
  cases l with
  | nil => rw [matchMarkerAt_nil] at hm; cases hm
  | cons c rest =>
    unfold stripMarkerCore
    simp only [List.length_cons, stripMarkerGo, hm]
    apply stripMarkerGo_congr
    · simp only [List.length_cons] at hlt
      omega
    · exact le_refl _

/-- `strip_marker` on the canonical concatenation: the marker block and
the following content's leading whitespace are removed in one match, and
the scan then continues over the remaining content. -/
theorem strip_marker_concat (u b : String) :
    strip_marker ("<!-- " ++ build_marker u ++ " -->\n" ++ b)
      = ⟨stripMarkerCore (b.data.dropWhile isPyWs)⟩ := by
  have hdata : ("<!-- " ++ build_marker u ++ " -->\n" ++ b).data
      = '<' :: '!' :: '-' :: '-' :: ' ' :: 'I' :: 'C' :: 'S' :: 'U' :: 'I' :: 'D' :: ':' ::
        ((sha1Hex u).data.take 16 ++ (' ' :: '-' :: '-' :: '>' :: '\n' :: b.data)) := by
    simp only [build_marker, String.data_append, List.append_assoc]
    rfl
  unfold strip_marker
  rw [hdata, stripMarkerCore_of_match
    (matchMarkerAt_canonical _ _ (sha1Hex_take16_length u) (sha1Hex_take16_hex u))]

/-- C10 (amended): prepending the freshly rendered invisible marker line
and stripping it is the identity on content that contains no marker and
does not start with whitespace (the regex's trailing greedy whitespace
consumption makes the unrestricted claim false, see the counterexample). -/
theorem marker_strip_roundtrip (u b : String)
    (hfree : strip_marker b = b)
    (hlead : b.data.dropWhile isPyWs = b.data) :
    strip_marker ("<!-- " ++ build_marker u ++ " -->\n" ++ b) = b := by
  have hcore : stripMarkerCore b.data = b.data := congrArg String.data hfree
  rw [strip_marker_concat, hlead, hcore]

/-- Counterexample to C10 as stated: for marker-free content beginning
with a space, stripping the prepended marker also deletes the leading
space, so the round trip is not the identity. -/
theorem marker_strip_roundtrip_cex :
    strip_marker " a" = " a"
    ∧ strip_marker ("<!-- " ++ build_marker "x" ++ " -->\n" ++ " a") ≠ " a" := by
  constructor
  · decide
  · rw [strip_marker_concat]
    decide

/-- Witness for the amended C10 at concrete inputs. -/
theorem marker_strip_roundtrip_witness :
    strip_marker ("<!-- " ++ build_marker "x" ++ " -->\n" ++ "body\n") = "body\n" :=
  marker_strip_roundtrip "x" "body\n" (by decide) (by decide)

/-! ## C9: supporting lemmas about the location normalizer's pieces -/

/-- The first character, if any, is not whitespace. -/
def noWsHead (l : List Char) : Prop :=
  ∀ c, l.head? = some c → isPyWs c = false

/-- The last character, if any, is not whitespace. -/
def noWsLast (l : List Char) : Prop :=
  ∀ c, l.getLast? = some c → isPyWs c = false

theorem head?_dropWhile_not (p : Char → Bool) :
    ∀ (l : List Char) (c : Char), (l.dropWhile p).head? = some c → p c = false := by
  intro l
  induction l with
  | nil =>
    intro c h
    simp at h
  | cons a rest ih =>
    intro c h
    rw [List.dropWhile_cons] at h
    split at h
    · exact ih c h
    · rename_i hpa
      simp only [List.head?_cons, Option.some.injEq] at h
      subst h
      simpa using hpa

theorem dropWhile_of_noWsHead {l : List Char} (h : noWsHead l) :
    l.dropWhile isPyWs = l := by
  cases l with
  | nil => rfl
  | cons c rest =>
    rw [List.dropWhile_cons, if_neg (by simp [h c rfl])]

theorem noWsLast_stripL (l : List Char) : noWsLast (stripL l) := by
  intro c hc
  unfold stripL at hc
  rw [List.getLast?_reverse] at hc
  exact head?_dropWhile_not isPyWs _ c hc

theorem noWsHead_stripL (l : List Char) : noWsHead (stripL l) := by
  intro c hc
  unfold stripL at hc
  have hyz : (l.dropWhile isPyWs).reverse
      = (l.dropWhile isPyWs).reverse.takeWhile isPyWs
        ++ (l.dropWhile isPyWs).reverse.dropWhile isPyWs :=
    (List.takeWhile_append_dropWhile isPyWs _).symm
  have hy2 : l.dropWhile isPyWs
      = ((l.dropWhile isPyWs).reverse.dropWhile isPyWs).reverse
        ++ ((l.dropWhile isPyWs).reverse.takeWhile isPyWs).reverse := by
    calc l.dropWhile isPyWs
        = (l.dropWhile isPyWs).reverse.reverse := (List.reverse_reverse _).symm
      _ = ((l.dropWhile isPyWs).reverse.takeWhile isPyWs
            ++ (l.dropWhile isPyWs).reverse.dropWhile isPyWs).reverse := by
          rw [← hyz]
      _ = _ := by rw [List.reverse_append]
  cases hzr : ((l.dropWhile isPyWs).reverse.dropWhile isPyWs).reverse with
  | nil =>
    rw [hzr] at hc
    simp at hc
  | cons a tl =>
    rw [hzr] at hc
    simp only [List.head?_cons, Option.some.injEq] at hc
    subst hc
    have hhead : (l.dropWhile isPyWs).head? = some a := by
      rw [hy2, hzr]
      rfl
    exact head?_dropWhile_not isPyWs l a hhead

theorem stripL_of_edges {l : List Char} (h1 : noWsHead l) (h2 : noWsLast l) :
    stripL l = l := by
  unfold stripL
  rw [dropWhile_of_noWsHead h1]
  have h3 : noWsHead l.reverse := by
    intro c hc
    rw [List.head?_reverse] at hc
    exact h2 c hc
  rw [dropWhile_of_noWsHead h3, List.reverse_reverse]

theorem mem_stripL {p : List Char} {c : Char} (h : c ∈ stripL p) : c ∈ p := by
  unfold stripL at h
  rw [List.mem_reverse] at h
  have h2 := (List.dropWhile_sublist isPyWs).subset h
  rw [List.mem_reverse] at h2
  exact (List.dropWhile_sublist isPyWs).subset h2

theorem stripL_cons_space (x : List Char) : stripL (' ' :: x) = stripL x := by
  unfold stripL
  rw [List.dropWhile_cons, if_pos (by decide)]

theorem head?_collapseGo_true (l : List Char) :
    ∀ c, (collapseGo true l).head? = some c → isPyWs c = false := by
  induction l with
  | nil =>
    intro c h
    simp [collapseGo] at h
  | cons a rest ih =>
    intro c h
    by_cases hw : isPyWs a
    · rw [show collapseGo true (a :: rest) = collapseGo true rest by
        simp [collapseGo, hw]] at h
      exact ih c h
    · rw [show collapseGo true (a :: rest) = a :: collapseGo false rest by
        simp [collapseGo, hw]] at h
      simp only [List.head?_cons, Option.some.injEq] at h
      subst h
      simpa using hw

theorem mem_collapseGo :
    ∀ (l : List Char) (pw : Bool) (c : Char),
      c ∈ collapseGo pw l → c = ' ' ∨ c ∈ l := by
  intro l
  induction l with
  | nil =>
    intro pw c h
    simp [collapseGo] at h
  | cons a rest ih =>
    intro pw c h
    by_cases hw : isPyWs a
    · cases pw with
      | true =>
        rw [show collapseGo true (a :: rest) = collapseGo true rest by
          simp [collapseGo, hw]] at h
        rcases ih true c h with h | h
        · exact Or.inl h
        · exact Or.inr (List.mem_cons_of_mem _ h)
      | false =>
        rw [show collapseGo false (a :: rest) = ' ' :: collapseGo true rest by
          simp [collapseGo, hw]] at h
        rcases List.mem_cons.mp h with rfl | h
        · exact Or.inl rfl
        · rcases ih true c h with h | h
          · exact Or.inl h
          · exact Or.inr (List.mem_cons_of_mem _ h)
    · rw [show collapseGo pw (a :: rest) = a :: collapseGo false rest by
        simp [collapseGo, hw]] at h
      rcases List.mem_cons.mp h with rfl | h
      · exact Or.inr (List.mem_cons_self _ _)
      · rcases ih false c h with h | h
        · exact Or.inl h
        · exact Or.inr (List.mem_cons_of_mem _ h)

/-- Collapsed shape: no two adjacent whitespace characters, and every
whitespace character is a plain space. -/
def wsSep (l : List Char) : Prop :=
  List.Chain' (fun a b => isPyWs a = false ∨ isPyWs b = false) l
    ∧ ∀ c ∈ l, isPyWs c = true → c = ' '

theorem wsSep_collapseGo :
    ∀ (l : List Char) (pw : Bool), wsSep (collapseGo pw l) := by
  intro l
  induction l with
  | nil =>
    intro pw
    exact ⟨by simp [collapseGo], by simp [collapseGo]⟩
  | cons a rest ih =>
    intro pw
    by_cases hw : isPyWs a
    · cases pw with
      | true =>
        rw [show collapseGo true (a :: rest) = collapseGo true rest by
          simp [collapseGo, hw]]
        exact ih true
      | false =>
        rw [show collapseGo false (a :: rest) = ' ' :: collapseGo true rest by
          simp [collapseGo, hw]]
        obtain ⟨hch, hmem⟩ := ih true
        refine ⟨List.chain'_cons'.mpr ⟨?_, hch⟩, ?_⟩
        · intro b hb
          exact Or.inr (head?_collapseGo_true rest b hb)
        · intro c hc hwc
          rcases List.mem_cons.mp hc with rfl | hc
          · rfl
          · exact hmem c hc hwc
    · rw [show collapseGo pw (a :: rest) = a :: collapseGo false rest by
        simp [collapseGo, hw]]
      obtain ⟨hch, hmem⟩ := ih false
      refine ⟨List.chain'_cons'.mpr ⟨?_, hch⟩, ?_⟩
      · intro b _
        exact Or.inl (by simpa using hw)
      · intro c hc hwc
        rcases List.mem_cons.mp hc with rfl | hc
        · exact absurd hwc (by simpa using hw)
        · exact hmem c hc hwc

theorem collapseGo_false_of_wsSep :
    ∀ (l : List Char), wsSep l → collapseGo false l = l := by
  intro l
  induction l with
  | nil => intro _; rfl
  | cons a rest ih =>
    intro ⟨hch, hmem⟩
    obtain ⟨hhd, hch'⟩ := List.chain'_cons'.mp hch
    have hrest : wsSep rest :=
      ⟨hch', fun c hc hwc => hmem c (List.mem_cons_of_mem _ hc) hwc⟩
    by_cases hw : isPyWs a
    · have ha : a = ' ' := hmem a (List.mem_cons_self _ _) hw
      rw [show collapseGo false (a :: rest) = ' ' :: collapseGo true rest by
        simp [collapseGo, hw]]
      rw [ha]
      cases rest with
      | nil => rfl
      | cons d r2 =>
        have hd : isPyWs d = false := by
          rcases hhd d rfl with h | h
          · rw [ha] at h
            exact absurd h (by simp [show isPyWs ' ' = true by decide])
          · exact h
        have ht : collapseGo true (d :: r2) = d :: collapseGo false r2 := by
          simp [collapseGo, hd]
        have hf : collapseGo false (d :: r2) = d :: collapseGo false r2 := by
          simp [collapseGo, hd]
        rw [ht, ← hf, ih hrest]
    · rw [show collapseGo false (a :: rest) = a :: collapseGo false rest by
        simp [collapseGo, hw]]
      rw [ih hrest]

theorem collapseL_idem (l : List Char) : collapseL (collapseL l) = collapseL l :=
  collapseGo_false_of_wsSep _ (wsSep_collapseGo l false)

/-- The whitespace state a left-to-right scan is in after a chunk. -/
def wsStateAfter (pw : Bool) (u : List Char) : Bool :=
  match u.getLast? with
  | none => pw
  | some c => isPyWs c

theorem wsStateAfter_cons (pw : Bool) (a : Char) (u : List Char) :
    wsStateAfter pw (a :: u) = wsStateAfter (isPyWs a) u := by
  cases u with
  | nil => rfl
  | cons b u2 =>
    unfold wsStateAfter
    rw [List.getLast?_cons_cons]
    cases h : (b :: u2).getLast? with
    | none => exact absurd h (by simp)
    | some c => rfl

theorem collapseGo_append :
    ∀ (u : List Char) (pw : Bool) (v : List Char),
      collapseGo pw (u ++ v) = collapseGo pw u ++ collapseGo (wsStateAfter pw u) v := by
  intro u
  induction u with
  | nil => intro pw v; rfl
  | cons a u2 ih =>
    intro pw v
    rw [wsStateAfter_cons]
    by_cases hw : isPyWs a
    · cases pw with
      | true =>
        rw [List.cons_append,
          show collapseGo true (a :: (u2 ++ v)) = collapseGo true (u2 ++ v) by
            simp [collapseGo, hw],
          show collapseGo true (a :: u2) = collapseGo true u2 by
            simp [collapseGo, hw],
          ih true v, hw]
      | false =>
        rw [List.cons_append,
          show collapseGo false (a :: (u2 ++ v)) = ' ' :: collapseGo true (u2 ++ v) by
            simp [collapseGo, hw],
          show collapseGo false (a :: u2) = ' ' :: collapseGo true u2 by
            simp [collapseGo, hw],
          ih true v, hw, List.cons_append]
    · rw [List.cons_append,
        show collapseGo pw (a :: (u2 ++ v)) = a :: collapseGo false (u2 ++ v) by
          simp [collapseGo, hw],
        show collapseGo pw (a :: u2) = a :: collapseGo false u2 by
          simp [collapseGo, hw],
        ih false v,
        show isPyWs a = false by simpa using hw, List.cons_append]

theorem noWsLast_collapseGo (pw : Bool) (l : List Char) (h : noWsLast l) :
    noWsLast (collapseGo pw l) := by
  induction l using List.reverseRecOn with
  | nil =>
    intro c hc
    simp [collapseGo] at hc
  | append_singleton l2 a _ =>
    have ha : isPyWs a = false := h a (by simp)
    rw [collapseGo_append]
    have h2 : collapseGo (wsStateAfter pw l2) [a] = [a] := by
      unfold collapseGo
      rw [if_neg (by simp [ha])]
      rfl
    rw [h2]
    intro c hc
    rw [List.getLast?_concat] at hc
    simp only [Option.some.injEq] at hc
    subst hc
    exact ha

theorem noWsHead_collapseGo_false {l : List Char} (h : noWsHead l) :
    noWsHead (collapseGo false l) := by
  cases l with
  | nil =>
    intro c hc
    simp [collapseGo] at hc
  | cons a rest =>
    have ha : isPyWs a = false := h a rfl
    rw [show collapseGo false (a :: rest) = a :: collapseGo false rest by
      simp [collapseGo, ha]]
    intro c hc
    simp only [List.head?_cons, Option.some.injEq] at hc
    subst hc
    exact ha

theorem procSeg_good {p : List Char} (hp : stripL p ≠ []) :
    procSeg p ≠ []
    ∧ stripL (procSeg p) = procSeg p
    ∧ collapseL (procSeg p) = procSeg p
    ∧ (∀ c ∈ procSeg p, c = ' ' ∨ c ∈ p) := by
  refine ⟨?_, ?_, ?_, ?_⟩
  · exact fun hc => hp (procSeg_eq_nil.mp hc)
  · apply stripL_of_edges
    · exact noWsHead_collapseGo_false (noWsHead_stripL p)
    · exact noWsLast_collapseGo false _ (noWsLast_stripL p)
  · exact collapseL_idem _
  · intro c hc
    rcases mem_collapseGo _ false c hc with h | h
    · exact Or.inl h
    · exact Or.inr (mem_stripL h)

theorem splitComma_ne_nil : ∀ (l : List Char), splitComma l ≠ [] := by
  intro l
  induction l with
  | nil => simp [splitComma]
  | cons c rest ih =>
    unfold splitComma
    split
    · simp
    · cases h : splitComma rest with
      | nil => exact absurd h ih
      | cons a t => simp

theorem splitComma_mem :
    ∀ (l : List Char), ∀ p ∈ splitComma l, ∀ c ∈ p, c ∈ l := by
  intro l
  induction l with
  | nil =>
    intro p hp c hc
    simp [splitComma] at hp
    subst hp
    simp at hc
  | cons a rest ih =>
    intro p hp c hc
    unfold splitComma at hp
    split at hp
    · rcases List.mem_cons.mp hp with rfl | hp
      · simp at hc
      · exact List.mem_cons_of_mem _ (ih p hp c hc)
    · cases h : splitComma rest with
      | nil => exact absurd h (splitComma_ne_nil rest)
      | cons q t =>
        rw [h] at hp
        rcases List.mem_cons.mp hp with rfl | hp
        · rcases List.mem_cons.mp hc with rfl | hc
          · exact List.mem_cons_self _ _
          · exact List.mem_cons_of_mem _
              (ih q (h ▸ List.mem_cons_self _ _) c hc)
        · exact List.mem_cons_of_mem _
            (ih p (h ▸ List.mem_cons_of_mem _ hp) c hc)

theorem splitComma_no_comma :
    ∀ (l : List Char), ∀ p ∈ splitComma l, ∀ c ∈ p, ¬(c = ',') := by
  intro l
  induction l with
  | nil =>
    intro p hp c hc
    simp [splitComma] at hp
    subst hp
    simp at hc
  | cons a rest ih =>
    intro p hp c hc
    unfold splitComma at hp
    split at hp
    · rcases List.mem_cons.mp hp with rfl | hp
      · simp at hc
      · exact ih p hp c hc
    · rename_i hne
      cases h : splitComma rest with
      | nil => exact absurd h (splitComma_ne_nil rest)
      | cons q t =>
        rw [h] at hp
        rcases List.mem_cons.mp hp with rfl | hp
        · rcases List.mem_cons.mp hc with rfl | hc
          · exact hne
          · exact ih q (h ▸ List.mem_cons_self _ _) c hc
        · exact ih p (h ▸ List.mem_cons_of_mem _ hp) c hc

theorem splitComma_append :
    ∀ (a l : List Char), (∀ c ∈ a, ¬(c = ',')) →
      splitComma (a ++ l) = (splitComma l).modifyHead (fun h => a ++ h) := by
  intro a
  induction a with
  | nil =>
    intro l _
    cases h : splitComma l with
    | nil => exact absurd h (splitComma_ne_nil l)
    | cons q t => simp [h]
  | cons c a2 ih =>
    intro l ha
    have hc : ¬(c = ',') := ha c (List.mem_cons_self _ _)
    have ha2 : ∀ x ∈ a2, ¬(x = ',') := fun x hx => ha x (List.mem_cons_of_mem _ hx)
    rw [List.cons_append]
    cases h : splitComma l with
    | nil => exact absurd h (splitComma_ne_nil l)
    | cons q t =>
      have hmid : splitComma (a2 ++ l) = (a2 ++ q) :: t := by
        rw [ih l ha2, h]
        rfl
      unfold splitComma
      rw [if_neg hc, hmid]
      rfl

theorem splitComma_joinCS :
    ∀ (L : List (List Char)) (q : List Char),
      (∀ p ∈ q :: L, ∀ c ∈ p, ¬(c = ',')) →
      splitComma (joinCS (q :: L)) = q :: L.map (fun p => ' ' :: p) := by
  intro L
  induction L with
  | nil =>
    intro q hq
    show splitComma q = [q]
    have h1 := splitComma_append q [] (fun c hc => hq q (List.mem_cons_self _ _) c hc)
    rw [List.append_nil] at h1
    rw [h1]
    simp [splitComma]
  | cons y t ih =>
    intro q hq
    show splitComma (q ++ ',' :: ' ' :: joinCS (y :: t)) = _
    rw [splitComma_append q _ (fun c hc => hq q (List.mem_cons_self _ _) c hc)]
    have h1 : splitComma (',' :: ' ' :: joinCS (y :: t))
        = [] :: splitComma (' ' :: joinCS (y :: t)) := by
      unfold splitComma
      rw [if_pos rfl]
      rfl
    have h2 : splitComma (' ' :: joinCS (y :: t))
        = ([' '] ++ (splitComma (joinCS (y :: t))).headD []) ::
            (splitComma (joinCS (y :: t))).tail := by
      rw [show (' ' :: joinCS (y :: t)) = [' '] ++ joinCS (y :: t) from rfl]
      rw [splitComma_append [' '] _ (by intro c hc; simp at hc; subst hc; decide)]
      cases h : splitComma (joinCS (y :: t)) with
      | nil => exact absurd h (splitComma_ne_nil _)
      | cons a t2 => simp
    have hih : splitComma (joinCS (y :: t)) = y :: t.map (fun p => ' ' :: p) :=
      ih y (fun p hp c hc => hq p (List.mem_cons_of_mem _ hp) c hc)
    rw [h1, h2, hih]
    simp

theorem mem_joinCS :
    ∀ (L : List (List Char)) (c : Char), c ∈ joinCS L →
      (∃ q ∈ L, c ∈ q) ∨ c = ',' ∨ c = ' ' := by
  intro L
  induction L with
  | nil =>
    intro c h
    simp [joinCS] at h
  | cons x t ih =>
    cases t with
    | nil =>
      intro c h
      exact Or.inl ⟨x, List.mem_cons_self _ _, h⟩
    | cons y t2 =>
      intro c h
      rw [show joinCS (x :: y :: t2) = x ++ ',' :: ' ' :: joinCS (y :: t2) from rfl,
        List.mem_append] at h
      rcases h with h | h
      · exact Or.inl ⟨x, List.mem_cons_self _ _, h⟩
      · rcases List.mem_cons.mp h with rfl | h
        · exact Or.inr (Or.inl rfl)
        · rcases List.mem_cons.mp h with rfl | h
          · exact Or.inr (Or.inr rfl)
          · rcases ih c h with ⟨q, hq, hcq⟩ | h
            · exact Or.inl ⟨q, List.mem_cons_of_mem _ hq, hcq⟩
            · exact Or.inr h

theorem dedupAcc_mem {α : Type} [DecidableEq α] {x : α} :
    ∀ (l acc : List α), x ∈ dedupAcc acc l → x ∈ acc ∨ x ∈ l := by
  intro l
  induction l with
  | nil =>
    intro acc h
    exact Or.inl h
  | cons p rest ih =>
    intro acc h
    unfold dedupAcc at h
    split at h
    · rcases ih acc h with h | h
      · exact Or.inl h
      · exact Or.inr (List.mem_cons_of_mem _ h)
    · rcases ih (acc ++ [p]) h with h | h
      · rcases List.mem_append.mp h with h | h
        · exact Or.inl h
        · simp at h
          subst h
          exact Or.inr (List.mem_cons_self _ _)
      · exact Or.inr (List.mem_cons_of_mem _ h)

theorem dedupAcc_nodup {α : Type} [DecidableEq α] :
    ∀ (l acc : List α), acc.Nodup → (dedupAcc acc l).Nodup := by
  intro l
  induction l with
  | nil =>
    intro acc h
    exact h
  | cons p rest ih =>
    intro acc hacc
    unfold dedupAcc
    split
    · exact ih acc hacc
    · rename_i hnot
      apply ih
      rw [List.nodup_append]
      exact ⟨hacc, List.nodup_singleton p, by simpa using hnot⟩

theorem dedupAcc_of_nodup {α : Type} [DecidableEq α] :
    ∀ (l acc : List α), (acc ++ l).Nodup → dedupAcc acc l = acc ++ l := by
  intro l
  induction l with
  | nil =>
    intro acc _
    simp [dedupAcc]
  | cons p rest ih =>
    intro acc h
    have hn := List.nodup_append.mp h
    have hp : p ∉ acc := by
      intro hmem
      exact hn.2.2 hmem (List.mem_cons_self _ _)
    unfold dedupAcc
    rw [if_neg hp]
    have h2 : ((acc ++ [p]) ++ rest).Nodup := by
      rw [List.append_assoc]
      simpa using h
    rw [ih (acc ++ [p]) h2, List.append_assoc]
    rfl

theorem map_lowChar_id {l : List Char} (h : ∀ c ∈ l, lowChar c = c) :
    pyLowerL l = l := by
  unfold pyLowerL
  calc l.map lowChar = l.map id := List.map_congr_left (fun c hc => (h c hc).trans rfl)
    _ = l := List.map_id l

/-- A list of segments that are nonempty, trimmed, collapsed,
lowercase-fixed and comma-free is a fixed point of the whole
normalization pipeline. -/
theorem norm_location_fixed (L : List (List Char)) (hnd : L.Nodup)
    (hq : ∀ q ∈ L, q ≠ [] ∧ stripL q = q ∧ collapseL q = q
      ∧ (∀ c ∈ q, lowChar c = c) ∧ (∀ c ∈ q, ¬(c = ','))) :
    norm_location ⟨joinCS L⟩ = ⟨joinCS L⟩ := by
  cases L with
  | nil => decide
  | cons q qs =>
    have hqf := hq q (List.mem_cons_self _ _)
    have hlow : pyLowerL (joinCS (q :: qs)) = joinCS (q :: qs) := by
      apply map_lowChar_id
      intro c hc
      rcases mem_joinCS _ c hc with ⟨p, hp, hcp⟩ | hcs | hcs
      · exact (hq p hp).2.2.2.1 c hcp
      · subst hcs
        decide
      · subst hcs
        decide
    have hsplit : splitComma (joinCS (q :: qs)) = q :: qs.map (fun p => ' ' :: p) :=
      splitComma_joinCS qs q (fun p hp c hc => (hq p hp).2.2.2.2 c hc)
    have hfilter : (q :: qs.map (fun p => ' ' :: p)).filter
        (fun p => !(stripL p).isEmpty) = q :: qs.map (fun p => ' ' :: p) := by
      rw [List.filter_eq_self]
      intro p hp
      rcases List.mem_cons.mp hp with rfl | hp
      · rw [hqf.2.1]
        simp [List.isEmpty_iff, hqf.1]
      · rw [List.mem_map] at hp
        obtain ⟨x, hx, rfl⟩ := hp
        have hxf := hq x (List.mem_cons_of_mem _ hx)
        rw [stripL_cons_space, hxf.2.1]
        simp [List.isEmpty_iff, hxf.1]
    have hmap : (q :: qs.map (fun p => ' ' :: p)).map procSeg = q :: qs := by
      have h1 : procSeg q = q := by
        unfold procSeg
        rw [hqf.2.1]
        exact hqf.2.2.1
      rw [List.map_cons, h1, List.map_map]
      have h2 : qs.map (procSeg ∘ (fun p => ' ' :: p)) = qs.map id := by
        apply List.map_congr_left
        intro x hx
        have hxf := hq x (List.mem_cons_of_mem _ hx)
        show procSeg (' ' :: x) = x
        unfold procSeg
        rw [stripL_cons_space, hxf.2.1]
        exact hxf.2.2.1
      rw [h2, List.map_id]
    have hdedup : dedupAcc [] (q :: qs) = q :: qs :=
      dedupAcc_of_nodup _ [] (by simpa using hnd)
    show norm_location ⟨joinCS (q :: qs)⟩ = ⟨joinCS (q :: qs)⟩
    unfold norm_location
    rw [show (String.mk (joinCS (q :: qs))).data = joinCS (q :: qs) from rfl]
    rw [hlow, hsplit, hfilter, hmap, hdedup]

/-- C9: the location normalizer is idempotent — applying `norm_location`
to its own output returns the output unchanged. -/
theorem norm_location_idem (s : String) :
    norm_location (norm_location s) = norm_location s := by
  have hns : norm_location s
      = ⟨joinCS (dedupAcc [] (((splitComma (pyLowerL s.data)).filter
          (fun p => !(stripL p).isEmpty)).map procSeg))⟩ := rfl
  rw [hns]
  apply norm_location_fixed
  · exact dedupAcc_nodup _ [] List.nodup_nil
  · intro q hqm
    rcases dedupAcc_mem _ [] hqm with h | h
    · simp at h
    · rw [List.mem_map] at h
      obtain ⟨p, hp, rfl⟩ := h
      rw [List.mem_filter] at hp
      have hpstrip : stripL p ≠ [] := by
        simpa [List.isEmpty_iff] using hp.2
      obtain ⟨g1, g2, g3, g4⟩ := procSeg_good hpstrip
      refine ⟨g1, g2, g3, ?_, ?_⟩
      · intro c hc
        rcases g4 c hc with rfl | hcp
        · decide
        · have hcm : c ∈ pyLowerL s.data := splitComma_mem _ p hp.1 c hcp
          unfold pyLowerL at hcm
          rw [List.mem_map] at hcm
          obtain ⟨a, _, rfl⟩ := hcm
          exact lowChar_lowChar a
      · intro c hc
        rcases g4 c hc with rfl | hcp
        · decide
        · exact splitComma_no_comma _ p hp.1 c hcp

end IcsSync
